import Mathlib

/-!
Verification development for the esm2pdf crawler/sequencer/renderer/merger
pipeline (src/esm2pdf.py).

The program's pure core is embedded shallowly:

* Strings are Lean `String`s; most computations work on `List Char`
  (Python `str` is a sequence of code points, as is `String.data`).
* `urllib.parse` (`urlsplit`, `urlparse`, `urlunsplit`, `urlunparse`,
  `urljoin`) is modelled function-by-function from CPython's
  `urllib/parse.py` (the 3.11/3.13 lineage: WHATWG `\t\r\n` removal,
  `urlunsplit` inserting `//` for netloc-using schemes).  The
  `ValueError` raise conditions of `urlsplit` are tracked by a separate
  boolean (`pyUrlsplitOk`) that accepts only bracket-free ASCII
  netlocs, on which no raise site of the library can fire.  The
  `re.IGNORECASE` matching of `HTML_OK` is modelled literal by literal
  including the extended Unicode case pairs relevant to its pattern
  (`literalIgnore`).
* Network fetch + link extraction are abstracted as a finite link graph
  `List (String × List String)`; a URL absent from the graph is a URL
  whose fetch fails (raises), an entry `(u, ls)` is a page whose fetch
  succeeds and whose extracted, normalized links are `ls`.
* The browser session of `print_to_pdf` is modelled as an event trace
  (navigate / print / log / close), with per-URL outcomes supplied by a
  collaborator function; a PDF file in the merge directory is modelled
  by the pages its lazy parse yields together with whether the
  iteration ends in an exception, since pypdf resolves pages lazily
  inside the merger's per-file `try`.
-/

namespace Esm

/-! ## Generic character/list helpers -/

/-- ASCII lowercasing of a character list.  Models Python `str.lower`
restricted to ASCII; CPython lowercases the full Unicode range, which
differs only on non-ASCII cased characters (irrelevant to the ASCII
configuration constants of this program). -/
def asciiLower (l : List Char) : List Char := l.map Char.toLower

/-- Python `str.isspace` character class (the set stripped by
`str.strip()` with no arguments). -/
def isPySpace (c : Char) : Bool :=
  decide ((9 ≤ c.toNat ∧ c.toNat ≤ 13) ∨ (28 ≤ c.toNat ∧ c.toNat ≤ 32) ∨
    c.toNat = 0x85 ∨ c.toNat = 0xa0 ∨ c.toNat = 0x1680 ∨
    (0x2000 ≤ c.toNat ∧ c.toNat ≤ 0x200a) ∨
    c.toNat = 0x2028 ∨ c.toNat = 0x2029 ∨ c.toNat = 0x202f ∨
    c.toNat = 0x205f ∨ c.toNat = 0x3000)

/-- Drop the longest suffix all of whose characters satisfy `p`. -/
def dropWhileEnd (p : Char → Bool) (l : List Char) : List Char :=
  (l.reverse.dropWhile p).reverse

/-- Python `str.strip()` (no arguments): strip whitespace on both ends. -/
def pyStrip (l : List Char) : List Char :=
  dropWhileEnd isPySpace (l.dropWhile isPySpace)

/-- Python `str.strip("/")`: strip `/` characters on both ends. -/
def stripSlashes (l : List Char) : List Char :=
  dropWhileEnd (fun c => c == '/') (l.dropWhile (fun c => c == '/'))

/-- `splitFirst c l = (before, after)` of the first occurrence of `c`;
if `c` does not occur, `(l, [])`.  Models Python `l.split(c, 1)`
combined with the callers' `if c in l` guards (both call sites of
`urlsplit` leave the second component empty exactly when `c ∉ l`). -/
def splitFirst (c : Char) (l : List Char) : List Char × List Char :=
  (l.takeWhile (fun a => !(a == c)), (l.dropWhile (fun a => !(a == c))).drop 1)

/-- Python substring containment (`pat in s` for `str`). -/
def isSubstring (pat : List Char) : List Char → Bool
  | [] => pat.isEmpty
  | c :: t => pat.isPrefixOf (c :: t) || isSubstring pat t

/-- Code-point lexicographic `≤` on character lists, the order Python
uses to compare `str` values (hence the order of `sorted`). -/
def lexLe : List Char → List Char → Bool
  | [], _ => true
  | _ :: _, [] => false
  | a :: as, b :: bs =>
    if a.toNat < b.toNat then true
    else if b.toNat < a.toNat then false
    else lexLe as bs

/-- Python string `≤` as a proposition. -/
def strLe (a b : String) : Prop := lexLe a.data b.data = true

instance : DecidableRel strLe := fun a b =>
  inferInstanceAs (Decidable (lexLe a.data b.data = true))

/-- Python `sorted` on a list of strings (Python sorts by `<` on
strings, a total order, so the stable sort is determined by the
multiset of elements; insertion sort computes the same result). -/
def pySorted (l : List String) : List String := List.insertionSort strLe l

/-! ## The `urllib.parse` model

Translated from CPython `urllib/parse.py` (as shipped with the Python
versions the script targets).  `allow_fragments` is always `True` at
every call site of this program, so it is inlined as `true`. -/

/-- `_UNSAFE_URL_BYTES_TO_REMOVE` removal: `url.replace(b, "")` for
`b` in `["\t", "\r", "\n"]`. -/
def removeUnsafe (l : List Char) : List Char :=
  l.filter (fun c => !(c == '\t' || c == '\r' || c == '\n'))

/-- `scheme_chars` membership (ASCII letters, digits, `+`, `-`, `.`). -/
def schemeChar (c : Char) : Bool :=
  c.isAlpha || c.isDigit || c == '+' || c == '-' || c == '.'

/-- The scheme-detection step of `urlsplit`:
`i = url.find(':')`, accept if `i > 0`, `url[0]` is an ASCII letter and
all of `url[:i]` are scheme characters; on success return
`(url[:i].lower(), url[i+1:])`, otherwise `(default, url)`. -/
def detectScheme (url dflt : List Char) : List Char × List Char :=
  let pre := url.takeWhile (fun c => !(c == ':'))
  if pre.length < url.length ∧ 0 < pre.length ∧
      (pre.headD ' ').isAlpha = true ∧ pre.all schemeChar = true then
    (asciiLower pre, url.drop (pre.length + 1))
  else
    (dflt, url)

/-- `_splitnetloc(url, 2)`: the netloc runs from position 2 to the first
of `/`, `?`, `#`; the second component is the remainder from that
delimiter on. -/
def splitNetloc (l : List Char) : List Char × List Char :=
  ((l.drop 2).takeWhile (fun c => !(c == '/' || c == '?' || c == '#')),
   (l.drop 2).dropWhile (fun c => !(c == '/' || c == '?' || c == '#')))

structure SplitResult where
  scheme : List Char
  netloc : List Char
  path : List Char
  query : List Char
  fragment : List Char
deriving DecidableEq

structure ParseResult where
  scheme : List Char
  netloc : List Char
  path : List Char
  params : List Char
  query : List Char
  fragment : List Char
deriving DecidableEq

/-- `urlsplit(url, scheme, allow_fragments=True)`, the pure result.
The `ValueError` conditions are tracked separately by `pyUrlsplitOk`. -/
def pyUrlsplit (url0 scheme0 : List Char) : SplitResult :=
  let url1 := removeUnsafe url0
  let dflt := removeUnsafe scheme0
  let sd := detectScheme url1 dflt
  let nl :=
    if sd.2.take 2 = ['/', '/'] then splitNetloc sd.2 else ([], sd.2)
  let f := splitFirst '#' nl.2
  let qq := splitFirst '?' f.1
  ⟨sd.1, nl.1, qq.1, qq.2, f.2⟩

/-- Whether `urlsplit` returns without raising.  CPython raises
`ValueError` for a netloc with mismatched square brackets ("Invalid
IPv6 URL"), validates a bracketed host (raising unless it is a literal
IPv6/IPvFuture address, 3.11.4+), and `_checknetloc` raises for
certain non-ASCII netlocs whose NFKC normalization introduces
separator characters.  This predicate requires an ASCII netloc with no
brackets at all; on such netlocs none of those raise sites can fire
(NFKC fixes ASCII), so the predicate is exact there and `false`
elsewhere (conservative). -/
def pyUrlsplitOk (url0 : List Char) : Bool :=
  let netloc := (pyUrlsplit url0 []).netloc
  !netloc.contains '[' && !netloc.contains ']' &&
    netloc.all (fun c => decide (c.toNat < 128))

def usesRelative : List (List Char) :=
  [[], "ftp".data, "http".data, "gopher".data, "nntp".data, "imap".data,
   "wais".data, "file".data, "https".data, "shttp".data, "mms".data,
   "prospero".data, "rtsp".data, "rtspu".data, "sftp".data,
   "svn".data, "svn+ssh".data, "ws".data, "wss".data]

def usesNetloc : List (List Char) :=
  [[], "ftp".data, "http".data, "gopher".data, "nntp".data, "telnet".data,
   "imap".data, "wais".data, "file".data, "mms".data, "https".data,
   "shttp".data, "snews".data, "prospero".data, "rtsp".data, "rtspu".data,
   "rsync".data, "svn".data, "svn+ssh".data, "sftp".data, "nfs".data,
   "git".data, "git+ssh".data, "ws".data, "wss".data]

def usesParams : List (List Char) :=
  [[], "ftp".data, "hdl".data, "prospero".data, "http".data, "imap".data,
   "https".data, "shttp".data, "rtsp".data, "rtspu".data, "sip".data,
   "sips".data, "mms".data, "sftp".data, "tel".data]

/-- `_splitparams(url)`: split `path` into `(path, params)` at the first
`;` occurring in the last path segment.  Only called when `;` is in the
path (the `urlparse` guard), matching CPython's call discipline. -/
def pySplitParams (url : List Char) : List Char × List Char :=
  if url.contains '/' then
    let afterSlash := (url.reverse.takeWhile (fun c => !(c == '/'))).reverse
    if afterSlash.contains ';' then
      (url.take (url.length - afterSlash.length) ++
         afterSlash.takeWhile (fun c => !(c == ';')),
       (afterSlash.dropWhile (fun c => !(c == ';'))).drop 1)
    else
      (url, [])
  else
    (url.takeWhile (fun c => !(c == ';')),
     (url.dropWhile (fun c => !(c == ';'))).drop 1)

/-- The `url[url.rfind('/'):]`-style suffix used by `_splitparams`: the
part of a path after its last `/` (the whole path when it has none). -/
def lastSeg (l : List Char) : List Char :=
  (l.reverse.takeWhile (fun c => !(c == '/'))).reverse

/-- The complement of `lastSeg`: everything up to and including the
last `/`. -/
def dirPart (l : List Char) : List Char :=
  l.take (l.length - (lastSeg l).length)

/-- Reattaching params to a path, as `urlunparse` does
(`"%s;%s" % (url, params)` when params is truthy). -/
def joinPP (a b : List Char) : List Char :=
  if ¬b.isEmpty = true then a ++ ';' :: b else a

/-- Invariant of a `(path, params)` pair produced by `urlparse`'s
params split: params contain no `/`; when params are non-empty the
path's last segment has no `;`; when params are empty the path either
has no `;` at all or has a `/` with a `;`-free last segment.  Pairs
with this invariant reassemble and re-split stably. -/
def GoodPP (p prm : List Char) : Prop :=
  ('/' ∉ prm) ∧ (prm ≠ [] → ';' ∉ lastSeg p) ∧
  (prm = [] → (';' ∉ p ∨ ('/' ∈ p ∧ ';' ∉ lastSeg p)))

/-- `urlparse(url, scheme, allow_fragments=True)`. -/
def pyUrlparse (url0 scheme0 : List Char) : ParseResult :=
  let s := pyUrlsplit url0 scheme0
  if usesParams.contains s.scheme && s.path.contains ';' then
    let pp := pySplitParams s.path
    ⟨s.scheme, s.netloc, pp.1, pp.2, s.query, s.fragment⟩
  else
    ⟨s.scheme, s.netloc, s.path, [], s.query, s.fragment⟩

/-- `urlunsplit((scheme, netloc, url, query, fragment))`. -/
def pyUrlunsplit (scheme netloc url query fragment : List Char) : List Char :=
  let url1 :=
    if ¬netloc.isEmpty = true ∨
        (¬scheme.isEmpty = true ∧ usesNetloc.contains scheme = true ∧
          url.take 2 ≠ ['/', '/']) then
      let url2 := if ¬url.isEmpty = true ∧ url.take 1 ≠ ['/'] then '/' :: url else url
      '/' :: '/' :: (netloc ++ url2)
    else url
  let url3 := if ¬scheme.isEmpty = true then scheme ++ ':' :: url1 else url1
  let url4 := if ¬query.isEmpty = true then url3 ++ '?' :: query else url3
  if ¬fragment.isEmpty = true then url4 ++ '#' :: fragment else url4

/-- `urlunparse`: reattach `;params` to the path, then `urlunsplit`. -/
def pyUrlunparse (p : ParseResult) : List Char :=
  pyUrlunsplit p.scheme p.netloc
    (if ¬p.params.isEmpty = true then p.path ++ ';' :: p.params else p.path)
    p.query p.fragment

/-- `segments[1:-1] = filter(None, segments[1:-1])`: drop empty segments
except in the first and last position. -/
def filterMiddle (segs : List (List Char)) : List (List Char) :=
  match segs with
  | [] => []
  | [a] => [a]
  | a :: rest =>
    a :: ((rest.dropLast.filter (fun s => !s.isEmpty)) ++ [rest.getLastD []])

/-- The `.`/`..` resolution loop of `urljoin` (`pop` on `..` ignoring
underflow, skip `.`, append otherwise; a trailing `.`/`..` re-appends
an empty segment). -/
def resolveSegs (segs : List (List Char)) : List (List Char) :=
  let r := segs.foldl
    (fun acc seg =>
      if seg = "..".data then acc.dropLast
      else if seg = ".".data then acc
      else acc ++ [seg]) []
  if segs.getLastD [] = "..".data ∨ segs.getLastD [] = ".".data then r ++ [[]]
  else r

/-- `urljoin(base, url)`. -/
def pyUrljoin (base url : List Char) : List Char :=
  if base.isEmpty = true then url
  else if url.isEmpty = true then base
  else
    let b := pyUrlparse base []
    let u := pyUrlparse url b.scheme
    if ¬(u.scheme = b.scheme ∧ usesRelative.contains u.scheme = true) then url
    else
      let netloc :=
        if usesNetloc.contains u.scheme = true ∧ u.netloc.isEmpty = true
        then b.netloc else u.netloc
      if usesNetloc.contains u.scheme = true ∧ ¬u.netloc.isEmpty = true then
        pyUrlunparse ⟨u.scheme, u.netloc, u.path, u.params, u.query, u.fragment⟩
      else if u.path.isEmpty = true ∧ u.params.isEmpty = true then
        pyUrlunparse ⟨u.scheme, netloc, b.path, b.params,
          (if u.query.isEmpty = true then b.query else u.query), u.fragment⟩
      else
        let baseParts0 := List.splitOn '/' b.path
        let baseParts :=
          if baseParts0.getLastD [] ≠ [] then baseParts0.dropLast else baseParts0
        let segments :=
          if u.path.take 1 = ['/'] then List.splitOn '/' u.path
          else filterMiddle (baseParts ++ List.splitOn '/' u.path)
        let joined := List.intercalate ['/'] (resolveSegs segments)
        pyUrlunparse ⟨u.scheme, netloc,
          (if joined.isEmpty = true then ['/'] else joined),
          u.params, u.query, u.fragment⟩

/-! ## Program configuration constants (esm2pdf.py lines 26-60) -/

def BASE : String := "https://engsoftmoderna.info"

def OUT_DIR : String := "esm_pdf_pages"

def FINAL_PDF : String := "Engenharia_de_Software_Moderna_site_completo.pdf"

def CHAPTERS_IN_ORDER : List String :=
  ["/cap0.html", "/cap1.html", "/cap2.html", "/cap3.html", "/cap4.html",
   "/cap5.html", "/cap6.html", "/cap7.html", "/cap8.html", "/cap9.html",
   "/cap10.html", "/capAp.html"]

def EXTRA_ROOTS : List String :=
  ["/", "/artigos/artigos.html", "/praticas.html",
   "/faq/testes-faq.html", "/faq/git-faq.html"]

def SKIP_EXTS : List String :=
  [".png", ".jpg", ".jpeg", ".svg", ".gif",
   ".pdf", ".zip", ".mp4", ".webm", ".ico"]

/-! ## The `HTML_OK` regex and `is_internal` -/

/-- Tail of the `HTML_OK` regex: `(/.*)?$` after the literal prefix.
Python `re` semantics: `.` matches every character except `\n`, and `$`
(without `re.MULTILINE`) matches at the end of the string or just before
a single trailing `\n`. -/
def htmlOkTail (rest : List Char) : Bool :=
  let r := if rest.getLastD ' ' == '\n' then rest.dropLast else rest
  r.isEmpty || (r.take 1 == ['/'] && !r.contains '\n')

/-- One literal pattern character under `re.IGNORECASE` (Unicode
mode).  CPython's `LITERAL_UNI_IGNORE` accepts `x` for pattern
character `p` exactly when the simple Unicode lowercase of `x` is `p`,
plus the extended case pairs of `sre_compile._equivalences`.  For the
characters occurring in this program's pattern — ASCII lowercase
letters and `:`, `/`, `.` — that set is: `p` itself; the ASCII
uppercase of `p` when `p` is a letter; `İ` (U+0130, simple lowercase
`i`) and `ı` (U+0131, an `_equivalences` pair of `i`) when `p = i`;
and `ſ` (U+017F, an `_equivalences` pair of `s`) when `p = s`. -/
def literalIgnore (p x : Char) : Bool :=
  x == p ||
  (decide (97 ≤ p.toNat) && decide (p.toNat ≤ 122) &&
    decide (x.toNat + 32 = p.toNat)) ||
  (p == 'i' && (decide (x.toNat = 0x130) || decide (x.toNat = 0x131))) ||
  (p == 's' && decide (x.toNat = 0x17f))

/-- Matching a literal pattern against the front of a string, one
character at a time (the string may continue past the pattern). -/
def matchesPrefix : List Char → List Char → Bool
  | [], _ => true
  | _ :: _, [] => false
  | p :: ps, x :: xs => literalIgnore p x && matchesPrefix ps xs

/-- `HTML_OK.match(l)`: the anchored regex
`^https://engsoftmoderna\.info(/.*)?$` compiled with `re.IGNORECASE`:
its 27 literals matched case-insensitively (`literalIgnore`), then the
optional `/`-tail. -/
def HTML_OK_matches (l : List Char) : Bool :=
  matchesPrefix ("https://engsoftmoderna.info".data) l &&
    htmlOkTail (l.drop 27)

/-- `is_internal(url)` (line 81-82). -/
def is_internal (url : String) : Bool := HTML_OK_matches url.data

/-- `absu.lower().endswith(SKIP_EXTS)` (line 98). -/
def endsWithSkipExt (l : List Char) : Bool :=
  SKIP_EXTS.any (fun e => e.data.isSuffixOf (asciiLower l))

/-! ## `normalize` (lines 84-100) -/

/-- Clear the query and fragment components
(`u._replace(fragment="", query="")`, line 94). -/
def clearQF (p : ParseResult) : ParseResult :=
  ⟨p.scheme, p.netloc, p.path, p.params, [], []⟩

/-- The second value assigned to `absu` inside `normalize` (lines 91-95):
resolve the (already stripped) href against `BASE`, re-parse, clear
query and fragment, and reassemble.  This is the string whose origin
`normalize` then tests against the configured domain. -/
def resolvedClean (href : List Char) : List Char :=
  pyUrlunparse (clearQF (pyUrlparse (pyUrljoin BASE.data href) []))

/-- `normalize(href)` (lines 84-100). -/
def normalize (href : String) : String :=
  if href.data.isEmpty = true then ""
  else
    let h := pyStrip href.data
    if h.take 1 = ['#'] then ""
    else
      let absu := resolvedClean h
      if ¬HTML_OK_matches absu = true then ""
      else if endsWithSkipExt absu = true then ""
      else String.mk absu

/-- Whether `normalize(href)` returns without raising: the only raise
sites are the two `urlsplit` calls reached through `urljoin` and
`urlparse` (the parse of the constant `BASE` never raises; the re-parse
and re-split of intermediate strings share the netloc condition of the
strings checked here). -/
def normalizeOk (href : String) : Bool :=
  if href.data.isEmpty = true then true
  else
    let h := pyStrip href.data
    if h.take 1 = ['#'] then true
    else pyUrlsplitOk h && pyUrlsplitOk (pyUrljoin BASE.data h)

/-- `url_path(url)` (lines 133-134): `urlparse(url).path or "/"`. -/
def url_path (url : String) : String :=
  let p := (pyUrlparse url.data []).path
  if p.isEmpty = true then "/" else String.mk p

/-! ## The crawler (lines 115-131)

`fetch_html` + `extract_links` are abstracted as a finite link graph:
`lookupG g u = none` models a fetch of `u` that raises (caught by the
`except` on line 125), `lookupG g u = some ls` models a successful
fetch whose extracted links are `ls`. -/

def lookupG (g : List (String × List String)) (u : String) :
    Option (List String) :=
  (g.find? (fun p => p.1 == u)).map (fun p => p.2)

/-- The BFS loop of `crawl_all`: `seen` is the ordered dict of visited
URLs (in first-visit order), the second list is the `deque` frontier.
Termination: each successful fetch adds a key of `g` to `seen`, and
otherwise the frontier shrinks. -/
def crawlAux (g : List (String × List String)) (seen : List String)
    (q : List String) : List String :=
  match q with
  | [] => seen
  | url :: q2 =>
    if url ∈ seen then crawlAux g seen q2
    else
      match h : lookupG g url with
      | none => crawlAux g seen q2
      | some links =>
        crawlAux g (seen ++ [url])
          (q2 ++ links.filter (fun n => decide (n ∉ seen ++ [url])))
  termination_by
    (((g.map Prod.fst).filter (fun k => decide (k ∉ seen))).length, q.length)
  decreasing_by
  · exact Prod.Lex.right _ (Nat.lt_succ_self _)
  · exact Prod.Lex.right _ (Nat.lt_succ_self _)
  · apply Prod.Lex.left
    rename_i hns
    have hmem : url ∈ List.map Prod.fst g := by
      rcases hf : g.find? (fun p => p.1 == url) with _ | pr
      · simp [lookupG, hf] at h
      · have hm := List.mem_of_find?_eq_some hf
        have hp := List.find?_some hf
        simp only [beq_iff_eq] at hp
        exact List.mem_map.mpr ⟨pr, hm, hp⟩
    have mono : ∀ ks : List String,
        (List.filter (fun k => decide (k ∉ seen ++ [url])) ks).length ≤
        (List.filter (fun k => decide (k ∉ seen)) ks).length := by
      intro ks
      induction ks with
      | nil => simp
      | cons a ks ih =>
        by_cases hb : a ∈ seen
        · have h1 : ¬(decide (a ∉ seen ++ [url]) = true) := by simp [hb]
          have h2 : ¬(decide (a ∉ seen) = true) := by simp [hb]
          rw [List.filter_cons, List.filter_cons, if_neg h1, if_neg h2]
          exact ih
        · by_cases hc : a = url
          · have h1 : ¬(decide (a ∉ seen ++ [url]) = true) := by simp [hc]
            have h2 : decide (a ∉ seen) = true := by simp [hb]
            rw [List.filter_cons, List.filter_cons, if_neg h1, if_pos h2,
              List.length_cons]
            exact Nat.le_succ_of_le ih
          · have h1 : decide (a ∉ seen ++ [url]) = true := by simp [hb, hc]
            have h2 : decide (a ∉ seen) = true := by simp [hb]
            rw [List.filter_cons, List.filter_cons, if_pos h1, if_pos h2,
              List.length_cons, List.length_cons]
            exact Nat.succ_le_succ ih
    have main : ∀ ks : List String, url ∈ ks →
        (List.filter (fun k => decide (k ∉ seen ++ [url])) ks).length <
        (List.filter (fun k => decide (k ∉ seen)) ks).length := by
      intro ks hks
      induction ks with
      | nil => cases hks
      | cons a ks ih =>
        by_cases hc : a = url
        · subst hc
          have h1 : ¬(decide (a ∉ seen ++ [a]) = true) := by simp
          have h2 : decide (a ∉ seen) = true := by simpa using hns
          rw [List.filter_cons, List.filter_cons, if_neg h1, if_pos h2,
            List.length_cons]
          exact Nat.lt_succ_of_le (mono ks)
        · have hks2 : url ∈ ks := by
            rcases List.mem_cons.mp hks with h' | h'
            · exact absurd h'.symm hc
            · exact h'
          by_cases hb : a ∈ seen
          · have h1 : ¬(decide (a ∉ seen ++ [url]) = true) := by simp [hb]
            have h2 : ¬(decide (a ∉ seen) = true) := by simp [hb]
            rw [List.filter_cons, List.filter_cons, if_neg h1, if_neg h2]
            exact ih hks2
          · have h1 : decide (a ∉ seen ++ [url]) = true := by simp [hb, hc]
            have h2 : decide (a ∉ seen) = true := by simp [hb]
            rw [List.filter_cons, List.filter_cons, if_pos h1, if_pos h2,
              List.length_cons, List.length_cons]
            exact Nat.succ_lt_succ (ih hks2)
    exact main _ hmem

/-- `crawl_all(start_urls)` (lines 115-131). -/
def crawl_all (g : List (String × List String)) (start_urls : List String) :
    List String :=
  crawlAux g [] start_urls

/-- One snapshot of the crawl loop state: the visited list and the
frontier deque. -/
structure CrawlState where
  seen : List String
  frontier : List String
deriving DecidableEq

/-- A single iteration of the `while q:` loop (lines 119-130), as a
state transformer (identity on an empty frontier). -/
def crawlStep (g : List (String × List String)) (s : CrawlState) :
    CrawlState :=
  match s.frontier with
  | [] => s
  | url :: q2 =>
    if url ∈ s.seen then ⟨s.seen, q2⟩
    else
      match lookupG g url with
      | none => ⟨s.seen, q2⟩
      | some links =>
        ⟨s.seen ++ [url],
         q2 ++ links.filter (fun n => decide (n ∉ s.seen ++ [url]))⟩

/-- Reachability in the link graph through successfully fetched pages:
the nodes the crawl is specified to return.  A node is reachable iff
its own fetch succeeds and it is a seed or a link of a reachable node. -/
inductive Reach (g : List (String × List String)) (seeds : List String) :
    String → Prop where
  | seed : ∀ u ls, u ∈ seeds → lookupG g u = some ls → Reach g seeds u
  | step : ∀ u v lsv ls, Reach g seeds v → lookupG g v = some lsv →
      u ∈ lsv → lookupG g u = some ls → Reach g seeds u

/-! ## The sequencer `order_urls` (lines 136-157) -/

/-- Python `"pat" in u` on the URL string (lines 153-155 test the whole
URL, not only its path). -/
def hasMarker (pat : String) (u : String) : Bool :=
  isSubstring pat.data u.data

/-- The dict comprehension `{url_path(u): u for u in all_urls}` (line
138), as a lookup function: on duplicate paths the last entry wins. -/
def by_path (all_urls : List String) (p : String) : Option String :=
  all_urls.reverse.find? (fun u => url_path u == p)

/-- `order_urls(all_urls)` (lines 136-157). -/
def order_urls (all_urls : List String) : List String :=
  let chapters := CHAPTERS_IN_ORDER.foldl
    (fun acc p =>
      match by_path all_urls p with
      | some u => acc ++ [u]
      | none => acc) []
  let ordered2 := EXTRA_ROOTS.foldl
    (fun acc p =>
      match by_path all_urls p with
      | some u => if u ∈ acc then acc else acc ++ [u]
      | none => acc) chapters
  let rest := all_urls.filter (fun u => decide (u ∉ ordered2))
  let artigos := pySorted (rest.filter (hasMarker "/artigos/"))
  let faq := pySorted (rest.filter (hasMarker "/faq/"))
  let others := pySorted
    (rest.filter (fun u => !hasMarker "/artigos/" u && !hasMarker "/faq/" u))
  ordered2 ++ (artigos ++ faq ++ others)

/-! Specification-side restatement of the sequencer's three stages
(used to compare `order_urls` against the spec's description). -/

/-- Stage 1 of the spec: the canonical chapter URLs in fixed order,
skipping absent chapters. -/
def chapterPart (l : List String) : List String :=
  CHAPTERS_IN_ORDER.filterMap (by_path l)

/-- Stage 2 of the spec: the extra-root URLs present and not already
emitted, in fixed order. -/
def extraPart (l : List String) : List String :=
  (EXTRA_ROOTS.filterMap (by_path l)).filter
    (fun u => decide (u ∉ chapterPart l))

/-- The URLs remaining after stages 1 and 2. -/
def restOf (l : List String) : List String :=
  l.filter (fun u => decide (u ∉ chapterPart l ++ extraPart l))

/-! ## The renderer `print_to_pdf` (lines 161-197)

The browser is an external collaborator; the per-URL outcome (success,
navigation failure, or print failure) is supplied as a function of the
1-based index and the URL, and the loop is recorded as an event trace. -/

inductive PageOutcome where
  | success
  | navFail
  | printFail
deriving DecidableEq

inductive RenderEvent where
  | navigate (url : String)
  | printPdf (fname : String)
  | logOk (fname : String)
  | logError (url : String)
  | closeBrowser
deriving DecidableEq

/-- `safe_name` (line 181): `url_path(url).strip("/").replace("/", " - ")
or "home"` (replacement of a one-character pattern = split + join). -/
def safe_name (url : String) : String :=
  let r := List.intercalate " - ".data
    (List.splitOn '/' (stripSlashes (url_path url).data))
  if r.isEmpty = true then "home" else String.mk r

/-- `f"{idx:04d}"`: decimal, left-padded with zeros to width 4. -/
def pad4 (n : Nat) : String :=
  String.mk (List.replicate (4 - (toString n).data.length) '0') ++ toString n

/-- The bare artifact filename `f"{idx:04d} - {safe_name}.pdf"` created
inside `OUT_DIR` (line 182). -/
def artifact_name (idx : Nat) (url : String) : String :=
  pad4 idx ++ " - " ++ safe_name url ++ ".pdf"

/-- The full path `os.path.join(OUT_DIR, ...)` (POSIX join). -/
def artifact_fname (idx : Nat) (url : String) : String :=
  OUT_DIR ++ "/" ++ artifact_name idx url

/-- The event trace of the `for idx, url in enumerate(urls, 1):` loop
(lines 180-197): every URL is navigated; on success the page is printed
and `[OK]` logged; any exception in the `try` body is caught and
`[ERRO]` logged (a navigation failure skips the print, a print failure
leaves no artifact); after the loop the browser is closed once.
`render_block` is the per-iteration event list. -/
def render_block (outcome : Nat → String → PageOutcome)
    (p : Nat × String) : List RenderEvent :=
  match outcome p.1 p.2 with
  | .success => [RenderEvent.navigate p.2,
      RenderEvent.printPdf (artifact_fname p.1 p.2),
      RenderEvent.logOk (artifact_fname p.1 p.2)]
  | .navFail => [RenderEvent.navigate p.2, RenderEvent.logError p.2]
  | .printFail => [RenderEvent.navigate p.2,
      RenderEvent.printPdf (artifact_fname p.1 p.2),
      RenderEvent.logError p.2]

def print_to_pdf_events (outcome : Nat → String → PageOutcome)
    (urls : List String) : List RenderEvent :=
  ((urls.enumFrom 1).map (render_block outcome)).flatten ++
    [RenderEvent.closeBrowser]

/-- The artifact files created in `OUT_DIR` by the loop: one per
successful URL, named by `artifact_name`, with abstract page content
supplied by the collaborator `pages`. -/
def print_to_pdf_artifacts (outcome : Nat → String → PageOutcome)
    (pages : Nat → String → List Nat) (urls : List String) :
    List (String × Option (List Nat)) :=
  (urls.enumFrom 1).filterMap
    (fun p =>
      match outcome p.1 p.2 with
      | .success => some (artifact_name p.1 p.2, some (pages p.1 p.2))
      | _ => none)

/-! ## The merger `merge_pdfs` (lines 199-217)

`OUT_DIR` is modelled as an association list from file name to the
behaviour of `PdfReader(f)` followed by lazy iteration over `r.pages`:
a pair `(pgs, raises)` where `pgs` are the pages that iteration yields
in order before it either completes (`raises = false`) or raises
(`raises = true`; `PdfReader` itself raising at open is `([], true)`).
pypdf resolves pages lazily, so a damaged file can raise between two
yielded pages; the `try` of lines 207-214 wraps the whole per-file
loop and `writer.add_page`/`added += 1` run once per yielded page, so
the pages yielded before the exception stay merged and counted, and
`except Exception: continue` moves on to the next file.
`os.makedirs(..., exist_ok=True)` on line 162 never clears the
directory, so a run's directory is `previous contents ++ new
artifacts`. -/

/-- The pages the lazy parse of one directory file yields: all of them
for a file that parses completely, the prefix before the exception for
a file whose parse fails mid-iteration, `[]` for a file `PdfReader`
cannot open. -/
def readPages (dir : List (String × List Nat × Bool)) (f : String) :
    List Nat :=
  match dir.find? (fun e => e.1 == f) with
  | some e => e.2.1
  | none => []

/-- `parts` (lines 201-205): the names ending in `.pdf`
case-insensitively, sorted.  CPython sorts the `os.path.join(OUT_DIR, f)`
strings; prefixing every name with the same directory string does not
change their relative lexicographic order, so the model sorts the bare
names. -/
def merge_parts (dir : List (String × List Nat × Bool)) : List String :=
  pySorted ((dir.map Prod.fst).filter
    (fun f => ".pdf".data.isSuffixOf (asciiLower f.data)))

/-- The page-accumulation loop of `merge_pdfs` (lines 206-214): returns
(pages written to the writer in order, `added`).  Every page a file's
lazy parse yields is written and counted before any exception fires;
the exception only ends that file's contribution, and the
`except: continue` keeps the merge going. -/
def merge_pdfs (dir : List (String × List Nat × Bool)) :
    List Nat × Nat :=
  (merge_parts dir).foldl
    (fun acc f => (acc.1 ++ readPages dir f,
      acc.2 + (readPages dir f).length)) ([], 0)

/-- Freshly rendered artifacts as directory entries: a file the
renderer has just written parses completely (its pages all yield, no
exception). -/
def asDir (arts : List (String × Option (List Nat))) :
    List (String × List Nat × Bool) :=
  arts.map (fun a => (a.1, a.2.getD [], false))

/-- Whether the lazy parse of a directory file raises at some point
(`PdfReader(f)` itself or the page iteration); an absent file raises
on open. -/
def readRaises (dir : List (String × List Nat × Bool)) (f : String) :
    Bool :=
  match dir.find? (fun e => e.1 == f) with
  | some e => e.2.2
  | none => true

/-- A concrete post-render directory: one leftover file whose parse
yields page 9 and then raises, plus the artifact of a fresh 1-page
render. -/
def c10dir : List (String × List Nat × Bool) :=
  [("0000 - broken.pdf", [9], true)] ++
    asDir (print_to_pdf_artifacts (fun _ _ => PageOutcome.success)
      (fun _ _ => [42]) ["https://engsoftmoderna.info/cap1.html"])


/-! ## Unfolding equations for the crawl loop -/

theorem crawlAux_nil (g : List (String × List String)) (seen : List String) :
    crawlAux g seen [] = seen := by
  rw [crawlAux.eq_def]

theorem crawlAux_cons_mem {g : List (String × List String)} {seen : List String}
    {url : String} {q2 : List String} (h : url ∈ seen) :
    crawlAux g seen (url :: q2) = crawlAux g seen q2 := by
  rw [crawlAux.eq_def]
  simp [h]

theorem crawlAux_cons_fail {g : List (String × List String)} {seen : List String}
    {url : String} {q2 : List String} (h1 : url ∉ seen)
    (h2 : lookupG g url = none) :
    crawlAux g seen (url :: q2) = crawlAux g seen q2 := by
  rw [crawlAux.eq_def]
  simp only [h1, if_false]
  split
  · rfl
  · rename_i links heq
    rw [h2] at heq
    exact Option.noConfusion heq

theorem crawlAux_cons_ok {g : List (String × List String)} {seen : List String}
    {url : String} {q2 links : List String} (h1 : url ∉ seen)
    (h2 : lookupG g url = some links) :
    crawlAux g seen (url :: q2) =
      crawlAux g (seen ++ [url])
        (q2 ++ links.filter (fun n => decide (n ∉ seen ++ [url]))) := by
  rw [crawlAux.eq_def]
  simp only [h1, if_false]
  split
  · rename_i heq
    rw [h2] at heq
    exact Option.noConfusion heq
  · rename_i links2 heq
    rw [h2] at heq
    injection heq with heq2
    subst heq2
    simp

/-! ## Crawl invariants -/

/-- Everything already visited is in the final visited list. -/
theorem crawlAux_mem_of_seen (g : List (String × List String)) :
    ∀ seen q : List String, ∀ x, x ∈ seen → x ∈ crawlAux g seen q := by
  refine crawlAux.induct g
    (fun seen q => ∀ x, x ∈ seen → x ∈ crawlAux g seen q) ?_ ?_ ?_ ?_
  · intro seen x hx
    rw [crawlAux_nil]
    exact hx
  · intro seen url q2 hmem ih x hx
    rw [crawlAux_cons_mem hmem]
    exact ih x hx
  · intro seen url q2 hns hfail ih x hx
    rw [crawlAux_cons_fail hns hfail]
    exact ih x hx
  · intro seen url q2 hns links hok ih x hx
    rw [crawlAux_cons_ok hns hok]
    exact ih x (List.mem_append_left _ hx)

/-- Every queued URL whose fetch succeeds ends up visited. -/
theorem crawlAux_mem_of_queued (g : List (String × List String)) :
    ∀ seen q : List String, ∀ x ls, x ∈ q → lookupG g x = some ls →
      x ∈ crawlAux g seen q := by
  refine crawlAux.induct g
    (fun seen q => ∀ x ls, x ∈ q → lookupG g x = some ls →
      x ∈ crawlAux g seen q) ?_ ?_ ?_ ?_
  · intro seen x ls hx
    cases hx
  · intro seen url q2 hmem ih x ls hx hl
    rw [crawlAux_cons_mem hmem]
    rcases List.mem_cons.mp hx with h | h
    · exact crawlAux_mem_of_seen g seen q2 x (h ▸ hmem)
    · exact ih x ls h hl
  · intro seen url q2 hns hfail ih x ls hx hl
    rw [crawlAux_cons_fail hns hfail]
    rcases List.mem_cons.mp hx with h | h
    · rw [h] at hl
      rw [hl] at hfail
      cases hfail
    · exact ih x ls h hl
  · intro seen url q2 hns links hok ih x ls hx hl
    rw [crawlAux_cons_ok hns hok]
    rcases List.mem_cons.mp hx with h | h
    · refine crawlAux_mem_of_seen g _ _ x ?_
      exact List.mem_append_right _ (by simp [h])
    · exact ih x ls (List.mem_append_left _ h) hl

/-- The link-closure invariant: every successful link of a visited page
is either visited or still queued. -/
def LinkInv (g : List (String × List String)) (seen q : List String) : Prop :=
  ∀ v ∈ seen, ∀ lsv, lookupG g v = some lsv →
    ∀ x ∈ lsv, (lookupG g x).isSome = true → x ∈ seen ∨ x ∈ q

/-- Under the link-closure invariant, the visited result is closed under
successful links. -/
theorem crawlAux_closed (g : List (String × List String)) :
    ∀ seen q : List String, LinkInv g seen q →
      ∀ v ∈ crawlAux g seen q, ∀ lsv, lookupG g v = some lsv →
        ∀ x ∈ lsv, (lookupG g x).isSome = true → x ∈ crawlAux g seen q := by
  refine crawlAux.induct g
    (fun seen q => LinkInv g seen q →
      ∀ v ∈ crawlAux g seen q, ∀ lsv, lookupG g v = some lsv →
        ∀ x ∈ lsv, (lookupG g x).isSome = true → x ∈ crawlAux g seen q)
    ?_ ?_ ?_ ?_
  · intro seen hInv v hv lsv hlv x hx hxok
    rw [crawlAux_nil] at hv ⊢
    rcases hInv v hv lsv hlv x hx hxok with h | h
    · exact h
    · cases h
  · intro seen url q2 hmem ih hInv
    rw [crawlAux_cons_mem hmem]
    refine ih ?_
    intro v hv lsv hlv x hx hxok
    rcases hInv v hv lsv hlv x hx hxok with h | h
    · exact Or.inl h
    · rcases List.mem_cons.mp h with h' | h'
      · exact Or.inl (h' ▸ hmem)
      · exact Or.inr h'
  · intro seen url q2 hns hfail ih hInv
    rw [crawlAux_cons_fail hns hfail]
    refine ih ?_
    intro v hv lsv hlv x hx hxok
    rcases hInv v hv lsv hlv x hx hxok with h | h
    · exact Or.inl h
    · rcases List.mem_cons.mp h with h' | h'
      · rw [h'] at hxok
        rw [hfail] at hxok
        cases hxok
      · exact Or.inr h'
  · intro seen url q2 hns links hok ih hInv
    rw [crawlAux_cons_ok hns hok]
    refine ih ?_
    intro v hv lsv hlv x hx hxok
    rcases List.mem_append.mp hv with hv' | hv'
    · rcases hInv v hv' lsv hlv x hx hxok with h | h
      · exact Or.inl (List.mem_append_left _ h)
      · rcases List.mem_cons.mp h with h' | h'
        · exact Or.inl (List.mem_append_right _ (by simp [h']))
        · exact Or.inr (List.mem_append_left _ h')
    · have hveq : v = url := by simpa using hv'
      rw [hveq] at hlv
      rw [hok] at hlv
      injection hlv with hlinks
      subst hlinks
      by_cases hxs : x ∈ seen ++ [url]
      · exact Or.inl hxs
      · refine Or.inr (List.mem_append_right _ ?_)
        exact List.mem_filter.mpr ⟨hx, by simpa using hxs⟩

/-- Soundness: every URL the crawl returns is reachable through
successfully fetched pages. -/
theorem crawlAux_sound (g : List (String × List String)) (seeds : List String) :
    ∀ seen q : List String, (∀ x ∈ seen, Reach g seeds x) →
      (∀ x ∈ q, ∀ ls, lookupG g x = some ls → Reach g seeds x) →
      ∀ x ∈ crawlAux g seen q, Reach g seeds x := by
  refine crawlAux.induct g
    (fun seen q => (∀ x ∈ seen, Reach g seeds x) →
      (∀ x ∈ q, ∀ ls, lookupG g x = some ls → Reach g seeds x) →
      ∀ x ∈ crawlAux g seen q, Reach g seeds x) ?_ ?_ ?_ ?_
  · intro seen hseen hq x hx
    rw [crawlAux_nil] at hx
    exact hseen x hx
  · intro seen url q2 hmem ih hseen hq x hx
    rw [crawlAux_cons_mem hmem] at hx
    refine ih hseen ?_ x hx
    intro y hy ls hl
    exact hq y (List.mem_cons_of_mem _ hy) ls hl
  · intro seen url q2 hns hfail ih hseen hq x hx
    rw [crawlAux_cons_fail hns hfail] at hx
    refine ih hseen ?_ x hx
    intro y hy ls hl
    exact hq y (List.mem_cons_of_mem _ hy) ls hl
  · intro seen url q2 hns links hok ih hseen hq x hx
    rw [crawlAux_cons_ok hns hok] at hx
    have hRurl : Reach g seeds url := hq url (List.mem_cons_self url q2) links hok
    refine ih ?_ ?_ x hx
    · intro y hy
      rcases List.mem_append.mp hy with h | h
      · exact hseen y h
      · have : y = url := by simpa using h
        exact this ▸ hRurl
    · intro y hy ls hl
      rcases List.mem_append.mp hy with h | h
      · exact hq y (List.mem_cons_of_mem _ h) ls hl
      · have hy' := List.mem_filter.mp h
        exact Reach.step y url links ls hRurl hok hy'.1 hl

/-- Completeness: every reachable URL is returned by the crawl. -/
theorem Reach_mem_crawl_all (g : List (String × List String))
    (seeds : List String) :
    ∀ x, Reach g seeds x → x ∈ crawl_all g seeds := by
  intro x hr
  induction hr with
  | seed u ls hu hl => exact crawlAux_mem_of_queued g [] seeds u ls hu hl
  | step u v lsv ls hv hlv hm hl ih =>
    refine crawlAux_closed g [] seeds ?_ v ih lsv hlv u hm ?_
    · intro w hw
      cases hw
    · rw [hl]
      rfl

/-- If every seed's fetch fails, nothing is reachable. -/
theorem Reach_empty_of_all_fail (g : List (String × List String))
    (seeds : List String) (hfail : ∀ s ∈ seeds, lookupG g s = none) :
    ∀ x, ¬Reach g seeds x := by
  intro x hr
  induction hr with
  | seed u ls hu hl =>
    rw [hfail u hu] at hl
    cases hl
  | step u v lsv ls hv hlv hm hl ih => exact ih

/-- C1.  For every seed list and link graph (fetch + link extraction
modelled by `lookupG`: `none` = fetch raises, `some ls` = fetch
succeeds with extracted links `ls`), `crawl_all` returns exactly the
URLs reachable from the seeds through successfully fetched pages — a
URL whose fetch fails is never returned — and when every seed's fetch
fails the result is the empty list.  `crawl_all` is a total function,
so no exception escapes the loop. -/
theorem claim_C1 (g : List (String × List String)) (seeds : List String) :
    (∀ u, u ∈ crawl_all g seeds ↔ Reach g seeds u) ∧
    ((∀ s ∈ seeds, lookupG g s = none) → crawl_all g seeds = []) := by
  constructor
  · intro u
    constructor
    · intro hu
      refine crawlAux_sound g seeds [] seeds ?_ ?_ u hu
      · intro x hx
        cases hx
      · intro x hx ls hl
        exact Reach.seed x ls hx hl
    · exact Reach_mem_crawl_all g seeds u
  · intro hfail
    rw [List.eq_nil_iff_forall_not_mem]
    intro a ha
    refine Reach_empty_of_all_fail g seeds hfail a ?_
    refine crawlAux_sound g seeds [] seeds ?_ ?_ a ha
    · intro x hx
      cases hx
    · intro x hx ls hl
      exact Reach.seed x ls hx hl

/-- Witness for C1 at a concrete input: a single seed whose fetch
fails yields the empty result, with no exception. -/
theorem claim_C1_witness :
    crawl_all [] ["https://engsoftmoderna.info/cap1.html"] = [] :=
  (claim_C1 [] ["https://engsoftmoderna.info/cap1.html"]).2 (by decide)


/-! ## C9: what one crawl iteration appends to the frontier -/

/-- C9 as stated is false: the crawl filters new links only against the
visited set, not against the frontier, so a page whose link list
repeats a URL puts that URL into the frontier twice.  Concretely, a
seed page linking twice to `cap1.html` leaves a frontier with a
duplicate after the first iteration. -/
theorem claim_C9_cex :
    crawlStep
      [("https://engsoftmoderna.info/",
        ["https://engsoftmoderna.info/cap1.html",
         "https://engsoftmoderna.info/cap1.html"])]
      ⟨[], ["https://engsoftmoderna.info/"]⟩ =
      ⟨["https://engsoftmoderna.info/"],
       ["https://engsoftmoderna.info/cap1.html",
        "https://engsoftmoderna.info/cap1.html"]⟩ ∧
    ¬(["https://engsoftmoderna.info/cap1.html",
       "https://engsoftmoderna.info/cap1.html"] : List String).Nodup := by
  constructor
  · decide
  · decide

/-- C9 amended.  After a successful fetch the loop appends to the
frontier tail exactly the extracted links that are not yet visited
(visited-set filtering only): every appended link is unvisited at
append time, but the frontier may repeat links and may retain entries
that become visited later; such entries are skipped when popped.  The
last conjunct records that this step is precisely what `crawl_all`'s
loop does. -/
theorem claim_C9 (g : List (String × List String)) (seen : List String)
    (url : String) (q2 links : List String) (h1 : url ∉ seen)
    (h2 : lookupG g url = some links) :
    crawlStep g ⟨seen, url :: q2⟩ =
      ⟨seen ++ [url],
       q2 ++ links.filter (fun n => decide (n ∉ seen ++ [url]))⟩ ∧
    (∀ x ∈ links.filter (fun n => decide (n ∉ seen ++ [url])),
      x ∉ seen ++ [url]) ∧
    crawlAux g seen (url :: q2) =
      crawlAux g (seen ++ [url])
        (q2 ++ links.filter (fun n => decide (n ∉ seen ++ [url]))) := by
  refine ⟨?_, ?_, crawlAux_cons_ok h1 h2⟩
  · simp only [crawlStep, h1, if_false, h2]
  · intro x hx
    have := (List.mem_filter.mp hx).2
    simpa using this

/-- Witness for the amended C9 at a concrete input. -/
theorem claim_C9_witness :
    crawlStep [("https://engsoftmoderna.info/",
        ["https://engsoftmoderna.info/cap1.html"])]
      ⟨[], ["https://engsoftmoderna.info/"]⟩ =
      ⟨[] ++ ["https://engsoftmoderna.info/"],
       [] ++ (["https://engsoftmoderna.info/cap1.html"].filter
         (fun n => decide (n ∉ ([] : List String) ++
           ["https://engsoftmoderna.info/"])))⟩ :=
  (claim_C9 _ [] "https://engsoftmoderna.info/" []
    ["https://engsoftmoderna.info/cap1.html"]
    (by decide) (by decide)).1


/-! ## The lexicographic order: totality, transitivity, antisymmetry -/

theorem lexLe_total : ∀ a b : List Char, lexLe a b = true ∨ lexLe b a = true := by
  intro a
  induction a with
  | nil => intro b; exact Or.inl rfl
  | cons x xs ih =>
    intro b
    cases b with
    | nil => exact Or.inr rfl
    | cons y ys =>
      rcases Nat.lt_trichotomy x.toNat y.toNat with h | h | h
      · left
        simp only [lexLe]
        rw [if_pos h]
      · have h1 : ¬x.toNat < y.toNat := by omega
        have h2 : ¬y.toNat < x.toNat := by omega
        rcases ih ys with h3 | h3
        · left
          simp only [lexLe]
          rw [if_neg h1, if_neg h2]
          exact h3
        · right
          simp only [lexLe]
          rw [if_neg h2, if_neg h1]
          exact h3
      · right
        simp only [lexLe]
        rw [if_pos h]
    
theorem lexLe_trans : ∀ a b c : List Char,
    lexLe a b = true → lexLe b c = true → lexLe a c = true := by
  intro a
  induction a with
  | nil => intro b c _ _; rfl
  | cons x xs ih =>
    intro b c hab hbc
    cases b with
    | nil => simp [lexLe] at hab
    | cons y ys =>
      cases c with
      | nil => simp [lexLe] at hbc
      | cons z zs =>
        simp only [lexLe] at hab hbc ⊢
        by_cases hxy : x.toNat < y.toNat
        · by_cases hyz : y.toNat < z.toNat
          · rw [if_pos (Nat.lt_trans hxy hyz)]
          · by_cases hzy : z.toNat < y.toNat
            · rw [if_neg hyz, if_pos hzy] at hbc
              exact absurd hbc (by simp)
            · have heq : y.toNat = z.toNat :=
                Nat.le_antisymm (Nat.le_of_not_lt hzy) (Nat.le_of_not_lt hyz)
              rw [if_pos (heq ▸ hxy)]
        · by_cases hyx : y.toNat < x.toNat
          · rw [if_neg hxy, if_pos hyx] at hab
            exact absurd hab (by simp)
          · have hxyeq : x.toNat = y.toNat :=
              Nat.le_antisymm (Nat.le_of_not_lt hyx) (Nat.le_of_not_lt hxy)
            rw [if_neg hxy, if_neg hyx] at hab
            by_cases hyz : y.toNat < z.toNat
            · rw [if_pos (hxyeq ▸ hyz)]
            · by_cases hzy : z.toNat < y.toNat
              · rw [if_neg hyz, if_pos hzy] at hbc
                exact absurd hbc (by simp)
              · have hyzeq : y.toNat = z.toNat :=
                  Nat.le_antisymm (Nat.le_of_not_lt hzy) (Nat.le_of_not_lt hyz)
                rw [if_neg hyz, if_neg hzy] at hbc
                have hxz : ¬x.toNat < z.toNat := by omega
                have hzx : ¬z.toNat < x.toNat := by omega
                rw [if_neg hxz, if_neg hzx]
                exact ih ys zs hab hbc

theorem char_toNat_inj {x y : Char} (h : x.toNat = y.toNat) : x = y := by
  cases x
  cases y
  simp only [Char.toNat] at h
  congr 1
  exact UInt32.ext h

theorem lexLe_antisymm : ∀ a b : List Char,
    lexLe a b = true → lexLe b a = true → a = b := by
  intro a
  induction a with
  | nil =>
    intro b _ hba
    cases b with
    | nil => rfl
    | cons y ys => simp [lexLe] at hba
  | cons x xs ih =>
    intro b hab hba
    cases b with
    | nil => simp [lexLe] at hab
    | cons y ys =>
      simp only [lexLe] at hab hba
      by_cases hxy : x.toNat < y.toNat
      · have hyx : ¬y.toNat < x.toNat := by omega
        rw [if_neg hyx, if_pos hxy] at hba
        exact absurd hba (by simp)
      · by_cases hyx : y.toNat < x.toNat
        · rw [if_neg hxy, if_pos hyx] at hab
          exact absurd hab (by simp)
        · have heq : x = y := char_toNat_inj
            (Nat.le_antisymm (Nat.le_of_not_lt hyx) (Nat.le_of_not_lt hxy))
          rw [if_neg hxy, if_neg hyx] at hab
          rw [if_neg hyx, if_neg hxy] at hba
          rw [heq, ih ys hab hba]

instance : IsTotal String strLe :=
  ⟨fun a b => lexLe_total a.data b.data⟩

instance : IsTrans String strLe :=
  ⟨fun a b c => lexLe_trans a.data b.data c.data⟩

instance : IsAntisymm String strLe :=
  ⟨fun a b hab hba => by
    have h2 := lexLe_antisymm a.data b.data hab hba
    cases a
    cases b
    exact congrArg String.mk h2⟩

/-- Sorting is invariant under permutation of the input (Python `sorted`
is a pure function of the input multiset). -/
theorem pySorted_perm_eq {l l' : List String} (h : l.Perm l') :
    pySorted l = pySorted l' := by
  refine List.eq_of_perm_of_sorted ?_ (List.sorted_insertionSort strLe l)
    (List.sorted_insertionSort strLe l')
  exact (List.perm_insertionSort strLe l).trans
    (h.trans (List.perm_insertionSort strLe l').symm)

theorem count_pySorted (a : String) (l : List String) :
    (pySorted l).count a = l.count a :=
  (List.perm_insertionSort strLe l).count_eq a


/-! ## Properties of the path lookup and the sequencer stages -/

/-- A hit in the path dictionary is an input URL with that path. -/
theorem by_path_some {l : List String} {p u : String}
    (h : by_path l p = some u) : u ∈ l ∧ url_path u = p := by
  unfold by_path at h
  have hm := List.mem_of_find?_eq_some h
  have hp := List.find?_some h
  simp only [beq_iff_eq] at hp
  exact ⟨List.mem_reverse.mp hm, hp⟩

/-- `find?` returns the unique element satisfying the predicate. -/
theorem find?_eq_some_of_unique {α : Type} {p : α → Bool} {u : α} :
    ∀ {xs : List α}, (∀ v ∈ xs, p v = true → v = u) → u ∈ xs →
      p u = true → xs.find? p = some u := by
  intro xs
  induction xs with
  | nil => intro _ hu; cases hu
  | cons a xs ih =>
    intro huniq hu hpu
    by_cases hpa : p a = true
    · have : a = u := huniq a (List.mem_cons_self a xs) hpa
      rw [List.find?_cons_of_pos _ hpa, this]
    · have hau : a ≠ u := fun he => hpa (he ▸ hpu)
      have hu2 : u ∈ xs := by
        rcases List.mem_cons.mp hu with h | h
        · exact absurd h.symm hau
        · exact h
      rw [List.find?_cons_of_neg _ (by simpa using hpa)]
      exact ih (fun v hv => huniq v (List.mem_cons_of_mem _ hv)) hu2 hpu

/-- URL lists whose members have pairwise distinct paths. -/
def pathInj (l : List String) : Prop :=
  ∀ u ∈ l, ∀ v ∈ l, url_path u = url_path v → u = v

/-- Under distinct paths, the path dictionary only depends on the input
as a set. -/
theorem by_path_eq_of_perm {l l' : List String} (hperm : l.Perm l')
    (hinj : pathInj l) : ∀ p, by_path l p = by_path l' p := by
  intro p
  cases hbp : by_path l p with
  | some u =>
    obtain ⟨hu, hp⟩ := by_path_some hbp
    unfold by_path
    refine (find?_eq_some_of_unique ?_ ?_ ?_).symm
    · intro v hv hvp
      simp only [beq_iff_eq] at hvp
      exact hinj v (hperm.mem_iff.mpr (List.mem_reverse.mp hv)) u hu
        (hvp.trans hp.symm)
    · exact List.mem_reverse.mpr (hperm.mem_iff.mp hu)
    · simp [hp]
  | none =>
    cases hbp' : by_path l' p with
    | none => rfl
    | some v =>
      obtain ⟨hv, hvp⟩ := by_path_some hbp'
      have hv1 : v ∈ l := hperm.mem_iff.mpr hv
      have : (by_path l p).isSome = true := by
        unfold by_path
        rw [List.find?_isSome]
        exact ⟨v, List.mem_reverse.mpr hv1, by simp [hvp]⟩
      rw [hbp] at this
      cases this

/-- Stage 1 of `order_urls` as a `filterMap`. -/
theorem foldl_chapters (l : List String) :
    ∀ (ps : List String) (acc : List String),
      ps.foldl (fun acc p =>
        match by_path l p with
        | some u => acc ++ [u]
        | none => acc) acc = acc ++ ps.filterMap (by_path l) := by
  intro ps
  induction ps with
  | nil => intro acc; simp
  | cons p ps ih =>
    intro acc
    cases hbp : by_path l p with
    | none => simp only [List.foldl_cons, hbp, List.filterMap_cons_none hbp]; exact ih acc
    | some u =>
      simp only [List.foldl_cons, hbp, List.filterMap_cons_some hbp]
      rw [ih (acc ++ [u])]
      simp

/-- Stage 2 of `order_urls`: the growing membership check against the
accumulator reduces to a filter against the initial accumulator,
because distinct extra-root paths produce distinct URLs. -/
theorem foldl_extras (l : List String) :
    ∀ (ps : List String) (acc : List String), ps.Nodup →
      ps.foldl (fun acc p =>
        match by_path l p with
        | some u => if u ∈ acc then acc else acc ++ [u]
        | none => acc) acc =
      acc ++ (ps.filterMap (by_path l)).filter (fun u => decide (u ∉ acc)) := by
  intro ps
  induction ps with
  | nil => intro acc _; simp
  | cons p ps ih =>
    intro acc hnd
    have hpnotin : p ∉ ps := (List.nodup_cons.mp hnd).1
    have hndps : ps.Nodup := (List.nodup_cons.mp hnd).2
    cases hbp : by_path l p with
    | none => simp only [List.foldl_cons, hbp, List.filterMap_cons_none hbp]; exact ih acc hndps
    | some u =>
      have hup : url_path u = p := (by_path_some hbp).2
      simp only [List.foldl_cons, hbp, List.filterMap_cons_some hbp]
      by_cases hmem : u ∈ acc
      · rw [if_pos hmem, List.filter_cons,
          if_neg (by simpa using hmem :
            ¬decide (u ∉ acc) = true)]
        exact ih acc hndps
      · rw [if_neg hmem, List.filter_cons,
          if_pos (by simpa using hmem : decide (u ∉ acc) = true)]
        rw [ih (acc ++ [u]) hndps]
        have hfeq : (ps.filterMap (by_path l)).filter
              (fun v => decide (v ∉ acc ++ [u])) =
            (ps.filterMap (by_path l)).filter (fun v => decide (v ∉ acc)) := by
          refine List.filter_congr ?_
          intro v hv
          obtain ⟨p2, hp2, hbp2⟩ := List.mem_filterMap.mp hv
          have hvp : url_path v = p2 := (by_path_some hbp2).2
          have hvu : v ≠ u := by
            intro he
            rw [he, hup] at hvp
            exact hpnotin (hvp ▸ hp2)
          simp [List.mem_append, hvu]
        rw [hfeq]
        simp

/-- The sequencer, restated as the spec describes it: canonical
chapters in fixed order, then the extra roots not already emitted, then
the three marker buckets of the remaining URLs, each sorted. -/
theorem order_urls_eq (l : List String) :
    order_urls l = chapterPart l ++ extraPart l ++
      (pySorted ((restOf l).filter (hasMarker "/artigos/")) ++
       pySorted ((restOf l).filter (hasMarker "/faq/")) ++
       pySorted ((restOf l).filter
         (fun u => !hasMarker "/artigos/" u && !hasMarker "/faq/" u))) := by
  simp only [order_urls]
  rw [foldl_chapters l CHAPTERS_IN_ORDER []]
  have hch : [] ++ List.filterMap (by_path l) CHAPTERS_IN_ORDER =
      chapterPart l := by
    simp [chapterPart]
  rw [hch]
  rw [foldl_extras l EXTRA_ROOTS (chapterPart l) (by decide)]
  rfl


/-! ## Structure of the first two sequencer stages -/

/-- `filterMap (by_path l)` over distinct paths yields distinct URLs
(each value carries its key as its path). -/
theorem filterMap_by_path_nodup (l : List String) :
    ∀ ps : List String, ps.Nodup → (ps.filterMap (by_path l)).Nodup := by
  intro ps
  induction ps with
  | nil => intro _; simp
  | cons p ps ih =>
    intro hnd
    have hpnotin : p ∉ ps := (List.nodup_cons.mp hnd).1
    have hndps : ps.Nodup := (List.nodup_cons.mp hnd).2
    cases hbp : by_path l p with
    | none => rw [List.filterMap_cons_none hbp]; exact ih hndps
    | some u =>
      rw [List.filterMap_cons_some hbp]
      rw [List.nodup_cons]
      refine ⟨?_, ih hndps⟩
      intro hu
      obtain ⟨p2, hp2, hbp2⟩ := List.mem_filterMap.mp hu
      have h1 : url_path u = p := (by_path_some hbp).2
      have h2 : url_path u = p2 := (by_path_some hbp2).2
      exact hpnotin ((h1.symm.trans h2) ▸ hp2)

/-- The chapters-and-extras part has no duplicates. -/
theorem ordered12_nodup (l : List String) :
    (chapterPart l ++ extraPart l).Nodup := by
  refine List.Nodup.append ?_ ?_ ?_
  · exact filterMap_by_path_nodup l CHAPTERS_IN_ORDER (by decide)
  · exact List.Nodup.filter _ (filterMap_by_path_nodup l EXTRA_ROOTS (by decide))
  · rw [List.disjoint_left]
    intro a ha ha2
    have := (List.mem_filter.mp ha2).2
    simp only [decide_eq_true_eq] at this
    exact this ha

/-- Every URL the first two stages emit comes from the input. -/
theorem ordered12_sub {l : List String} {u : String}
    (h : u ∈ chapterPart l ++ extraPart l) : u ∈ l := by
  rcases List.mem_append.mp h with h | h
  · obtain ⟨p, _, hbp⟩ := List.mem_filterMap.mp h
    exact (by_path_some hbp).1
  · obtain ⟨p, _, hbp⟩ := List.mem_filterMap.mp (List.mem_filter.mp h).1
    exact (by_path_some hbp).1

/-- Counting occurrences in the full sequencer output. -/
theorem order_urls_count (l : List String) (a : String) :
    (order_urls l).count a =
      (chapterPart l ++ extraPart l).count a +
      (((restOf l).filter (hasMarker "/artigos/")).count a +
       ((restOf l).filter (hasMarker "/faq/")).count a +
       ((restOf l).filter
         (fun u => !hasMarker "/artigos/" u && !hasMarker "/faq/" u)).count a) := by
  rw [order_urls_eq l]
  simp only [List.count_append, count_pySorted]

/-- C2 amended.  For an input list of distinct URLs, none of which
contains both the articles marker and the FAQ marker, the sequencer
output is a permutation of the input: every URL appears exactly
once. -/
theorem claim_C2 (l : List String) (hnd : l.Nodup)
    (hmk : ∀ u ∈ l, ¬(hasMarker "/artigos/" u = true ∧ hasMarker "/faq/" u = true)) :
    (order_urls l).Perm l := by
  rw [List.perm_iff_count]
  intro a
  rw [order_urls_count l a]
  by_cases hmem : a ∈ chapterPart l ++ extraPart l
  · have h1 : (chapterPart l ++ extraPart l).count a = 1 :=
      List.count_eq_one_of_mem (ordered12_nodup l) hmem
    have hrest : a ∉ restOf l := by
      intro h
      have := (List.mem_filter.mp h).2
      simp only [decide_eq_true_eq] at this
      exact this hmem
    have hz : ∀ p : String → Bool, ((restOf l).filter p).count a = 0 := by
      intro p
      refine List.count_eq_zero_of_not_mem ?_
      intro h
      exact hrest (List.mem_filter.mp h).1
    rw [h1, hz, hz, hz]
    rw [List.count_eq_one_of_mem hnd (ordered12_sub hmem)]
  · have h1 : (chapterPart l ++ extraPart l).count a = 0 :=
      List.count_eq_zero_of_not_mem hmem
    rw [h1]
    by_cases hal : a ∈ l
    · have hcr : (restOf l).count a = l.count a := by
        unfold restOf
        exact List.count_filter (by simpa using hmem)
      have hbucket : ∀ p : String → Bool,
          ((restOf l).filter p).count a =
            if p a = true then (restOf l).count a else 0 := by
        intro p
        by_cases hpa : p a = true
        · rw [if_pos hpa, List.count_filter hpa]
        · rw [if_neg hpa]
          refine List.count_eq_zero_of_not_mem ?_
          intro h
          exact hpa (List.mem_filter.mp h).2
      rw [hbucket, hbucket, hbucket, hcr]
      rcases ha : hasMarker "/artigos/" a with _ | _ <;>
        rcases hf : hasMarker "/faq/" a with _ | _
      · simp [ha, hf]
      · simp [ha, hf]
      · simp [ha, hf]
      · exact absurd ⟨ha, hf⟩ (hmk a hal)
    · have hz : ∀ p : String → Bool, ((restOf l).filter p).count a = 0 := by
        intro p
        refine List.count_eq_zero_of_not_mem ?_
        intro h
        exact hal (List.mem_filter.mp (List.mem_filter.mp h).1).1
      rw [hz, hz, hz, List.count_eq_zero_of_not_mem hal]


/-- C2 as stated is false: a URL containing both the articles marker
and the FAQ marker lands in both of the first two buckets, so it
appears twice in the output even for a singleton input. -/
theorem claim_C2_cex :
    (order_urls ["https://engsoftmoderna.info/artigos/faq/a.html"]).count
        "https://engsoftmoderna.info/artigos/faq/a.html" = 2 ∧
    ¬(order_urls ["https://engsoftmoderna.info/artigos/faq/a.html"]).Perm
        ["https://engsoftmoderna.info/artigos/faq/a.html"] := by
  constructor
  · decide
  · decide

/-- Witness for the amended C2: the spec's own example input (chapters
3 and 1 and the appendix, out of order, plus two article pages). -/
theorem claim_C2_witness :
    (order_urls
      ["https://engsoftmoderna.info/cap3.html",
       "https://engsoftmoderna.info/artigos/zebra.html",
       "https://engsoftmoderna.info/cap1.html",
       "https://engsoftmoderna.info/capAp.html",
       "https://engsoftmoderna.info/artigos/alfa.html"]).Perm
      ["https://engsoftmoderna.info/cap3.html",
       "https://engsoftmoderna.info/artigos/zebra.html",
       "https://engsoftmoderna.info/cap1.html",
       "https://engsoftmoderna.info/capAp.html",
       "https://engsoftmoderna.info/artigos/alfa.html"] :=
  claim_C2 _ (by decide) (by decide)

/-- C3 as stated is false in its partition clause: the remaining URLs
are not partitioned into disjoint buckets — a URL containing both
markers is emitted by both the articles bucket and the FAQ bucket, so
the output of a singleton input has two entries where any partition
of the remainder would emit exactly one. -/
theorem claim_C3_cex :
    chapterPart ["https://engsoftmoderna.info/artigos/faq/c.html"] = [] ∧
    extraPart ["https://engsoftmoderna.info/artigos/faq/c.html"] = [] ∧
    order_urls ["https://engsoftmoderna.info/artigos/faq/c.html"] =
      ["https://engsoftmoderna.info/artigos/faq/c.html",
       "https://engsoftmoderna.info/artigos/faq/c.html"] ∧
    order_urls ["https://engsoftmoderna.info/artigos/faq/c.html"] ≠
      ["https://engsoftmoderna.info/artigos/faq/c.html"] := by
  refine ⟨by decide, by decide, by decide, by decide⟩

/-- C3 amended.  The output is the canonical chapters present (fixed
order), then the extra roots present and not already emitted (fixed
order), then three sorted buckets of the remaining URLs selected by
substring containment on the full URL — articles-marker bucket,
FAQ-marker bucket, neither-marker bucket — which overlap when a URL
contains both markers.  The second conjunct checks the spec's concrete
example. -/
theorem claim_C3 :
    (∀ l, order_urls l = chapterPart l ++ extraPart l ++
      (pySorted ((restOf l).filter (hasMarker "/artigos/")) ++
       pySorted ((restOf l).filter (hasMarker "/faq/")) ++
       pySorted ((restOf l).filter
         (fun u => !hasMarker "/artigos/" u && !hasMarker "/faq/" u)))) ∧
    order_urls
      ["https://engsoftmoderna.info/cap3.html",
       "https://engsoftmoderna.info/artigos/zebra.html",
       "https://engsoftmoderna.info/cap1.html",
       "https://engsoftmoderna.info/capAp.html",
       "https://engsoftmoderna.info/artigos/alfa.html"] =
      ["https://engsoftmoderna.info/cap1.html",
       "https://engsoftmoderna.info/cap3.html",
       "https://engsoftmoderna.info/capAp.html",
       "https://engsoftmoderna.info/artigos/alfa.html",
       "https://engsoftmoderna.info/artigos/zebra.html"] := by
  exact ⟨order_urls_eq, by decide⟩

/-- C4 as stated is false: two distinct URLs with the same path (the
domain test is case-insensitive, so a crawl can retain both spellings)
make the last-seen-wins path dictionary order-sensitive, and the two
orders of the same two-element set produce different outputs. -/
theorem claim_C4_cex :
    (["https://engsoftmoderna.info/cap1.html",
      "https://ENGSOFTMODERNA.INFO/cap1.html"] : List String).Perm
      ["https://ENGSOFTMODERNA.INFO/cap1.html",
       "https://engsoftmoderna.info/cap1.html"] ∧
    order_urls ["https://engsoftmoderna.info/cap1.html",
      "https://ENGSOFTMODERNA.INFO/cap1.html"] ≠
    order_urls ["https://ENGSOFTMODERNA.INFO/cap1.html",
      "https://engsoftmoderna.info/cap1.html"] := by
  constructor
  · decide
  · decide

/-- C4 amended.  When the input URLs have pairwise distinct paths (the
expected situation after normalization, cf. the spec's open question on
duplicate paths), the sequencer's output depends only on the input as
a set: permuting the input list does not change the output. -/
theorem claim_C4 (l1 l2 : List String) (hperm : l1.Perm l2)
    (hinj : pathInj l1) :
    order_urls l1 = order_urls l2 := by
  have hbp : ∀ p, by_path l1 p = by_path l2 p := by_path_eq_of_perm hperm hinj
  have hch : chapterPart l1 = chapterPart l2 := by
    unfold chapterPart
    exact List.filterMap_congr (fun p _ => hbp p)
  have hex : extraPart l1 = extraPart l2 := by
    unfold extraPart
    rw [hch, List.filterMap_congr (fun p _ => hbp p)]
  have hrest : (restOf l1).Perm (restOf l2) := by
    unfold restOf
    rw [hch, hex]
    exact hperm.filter _
  rw [order_urls_eq l1, order_urls_eq l2, hch, hex]
  rw [pySorted_perm_eq (hrest.filter _), pySorted_perm_eq (hrest.filter _),
    pySorted_perm_eq (hrest.filter _)]

/-- Witness for the amended C4 at a concrete pair of inputs. -/
theorem claim_C4_witness :
    order_urls ["https://engsoftmoderna.info/cap3.html",
      "https://engsoftmoderna.info/cap1.html"] =
    order_urls ["https://engsoftmoderna.info/cap1.html",
      "https://engsoftmoderna.info/cap3.html"] :=
  claim_C4 _ _ (by decide) (by unfold pathInj; decide)


/-! ## C5: renderer failure isolation and session closing -/

/-- Every per-URL block navigates its URL first, whatever the outcome. -/
theorem render_block_nav (outcome : Nat → String → PageOutcome)
    (p : Nat × String) :
    (render_block outcome p).filterMap
      (fun e => match e with | RenderEvent.navigate u => some u | _ => none) =
      [p.2] := by
  unfold render_block
  rcases outcome p.1 p.2 <;> rfl

/-- No per-URL block closes the browser. -/
theorem render_block_no_close (outcome : Nat → String → PageOutcome)
    (p : Nat × String) :
    (render_block outcome p).count RenderEvent.closeBrowser = 0 := by
  unfold render_block
  rcases outcome p.1 p.2 <;> rfl

theorem events_loop_nav (outcome : Nat → String → PageOutcome) :
    ∀ (urls : List String) (n : Nat),
      (((urls.enumFrom n).map (render_block outcome)).flatten).filterMap
        (fun e => match e with
          | RenderEvent.navigate u => some u
          | _ => none) = urls := by
  intro urls
  induction urls with
  | nil => intro n; rfl
  | cons u us ih =>
    intro n
    simp only [List.enumFrom_cons, List.map_cons, List.flatten_cons,
      List.filterMap_append]
    rw [render_block_nav outcome (n, u), ih (n + 1)]
    rfl

theorem events_loop_no_close (outcome : Nat → String → PageOutcome) :
    ∀ (urls : List String) (n : Nat),
      (((urls.enumFrom n).map (render_block outcome)).flatten).count
        RenderEvent.closeBrowser = 0 := by
  intro urls
  induction urls with
  | nil => intro n; rfl
  | cons u us ih =>
    intro n
    simp only [List.enumFrom_cons, List.map_cons, List.flatten_cons,
      List.count_append]
    rw [render_block_no_close outcome (n, u), ih (n + 1)]

/-- C5.  For every URL list and every per-URL outcome assignment
(navigation failure, print failure, or success — failures are caught by
the per-iteration `try`/`except`): every URL is navigated, in order,
regardless of earlier failures; the trace is the per-URL blocks
followed by exactly one browser close, which is the final event; the
artifacts produced are exactly those of the successful URLs; and in a
3-URL batch with a forced navigation failure on the second URL, the
first and third artifacts are still produced. -/
theorem claim_C5 (outcome : Nat → String → PageOutcome)
    (pages : Nat → String → List Nat) (urls : List String) :
    ((print_to_pdf_events outcome urls).filterMap
      (fun e => match e with
        | RenderEvent.navigate u => some u
        | _ => none) = urls) ∧
    (∃ pre, print_to_pdf_events outcome urls =
        pre ++ [RenderEvent.closeBrowser] ∧
      pre.count RenderEvent.closeBrowser = 0) ∧
    ((print_to_pdf_events outcome urls).count RenderEvent.closeBrowser = 1) ∧
    (print_to_pdf_artifacts outcome pages urls =
      (urls.enumFrom 1).filterMap
        (fun p => if outcome p.1 p.2 = PageOutcome.success
          then some (artifact_name p.1 p.2, some (pages p.1 p.2))
          else none)) ∧
    ((print_to_pdf_artifacts
        (fun i _ => if i = 2 then PageOutcome.navFail else PageOutcome.success)
        (fun i _ => [i])
        ["https://engsoftmoderna.info/cap1.html",
         "https://engsoftmoderna.info/cap2.html",
         "https://engsoftmoderna.info/cap3.html"]).map Prod.fst =
      ["0001 - cap1.html.pdf", "0003 - cap3.html.pdf"]) := by
  refine ⟨?_, ?_, ?_, ?_, by decide⟩
  · unfold print_to_pdf_events
    rw [List.filterMap_append, events_loop_nav outcome urls 1]
    simp
  · exact ⟨((urls.enumFrom 1).map (render_block outcome)).flatten,
      rfl, events_loop_no_close outcome urls 1⟩
  · unfold print_to_pdf_events
    rw [List.count_append, events_loop_no_close outcome urls 1]
    simp
  · unfold print_to_pdf_artifacts
    refine List.filterMap_congr ?_
    intro p _
    rcases outcome p.1 p.2 <;> simp


/-! ## C6 and C10: the merger -/

/-- The merge loop appends, per file of `parts` in order, exactly the
pages that file's lazy parse yields before any failure, and counts
them; a failure ends only that file's contribution (`continue`). -/
theorem merge_foldl (dir : List (String × List Nat × Bool)) :
    ∀ (parts : List String) (accL : List Nat) (accN : Nat),
      parts.foldl
        (fun acc f => (acc.1 ++ readPages dir f,
          acc.2 + (readPages dir f).length)) (accL, accN) =
      (accL ++ (parts.map (readPages dir)).flatten,
       accN + (parts.map (readPages dir)).flatten.length) := by
  intro parts
  induction parts with
  | nil => intro accL accN; simp
  | cons f parts ih =>
    intro accL accN
    simp only [List.foldl_cons, List.map_cons, List.flatten_cons]
    rw [ih (accL ++ readPages dir f) (accN + (readPages dir f).length)]
    simp only [List.append_assoc, List.length_append]
    rw [Nat.add_assoc]

/-- C6 counterexample to "no partial-page inclusion": `r.pages` is a
lazy iterator and `writer.add_page`/`added += 1` run per page inside
the `try`, so a middle file whose parse fails after yielding one page
(entry `("0002 - b.pdf", [3], true)`) still contributes that page —
the merge gives 4 pages including page 3, not the 3 pages the claim's
all-or-nothing reading predicts. -/
theorem claim_C6_cex :
    merge_pdfs [("0001 - a.pdf", [1, 2], false),
      ("0002 - b.pdf", [3], true), ("0003 - c.pdf", [6], false)] =
      ([1, 2, 3, 6], 4) ∧
    merge_pdfs [("0001 - a.pdf", [1, 2], false),
      ("0002 - b.pdf", [3], true), ("0003 - c.pdf", [6], false)] ≠
      ([1, 2, 6], 3) := by
  exact ⟨by decide, by decide⟩

/-- C6 (amended).  The merger appends, in filename-sorted order, the
pages each file's lazy parse yields before any failure: a file whose
parse fails after yielding `k` pages contributes exactly those `k`
pages, a file failing before yielding any page contributes none, and
no failure aborts the loop.  Concretely: three files of 2, 3 and 1
pages merge to the 6 pages in file order, and a middle file whose
parse fails upfront yields the remaining 3 pages while all three files
are still listed. -/
theorem claim_C6 (dir : List (String × List Nat × Bool)) :
    ((merge_pdfs dir).1 = ((merge_parts dir).map (readPages dir)).flatten ∧
     (merge_pdfs dir).2 =
       ((merge_parts dir).map (readPages dir)).flatten.length) ∧
    merge_pdfs [("0001 - a.pdf", [1, 2], false),
      ("0002 - b.pdf", [3, 4, 5], false), ("0003 - c.pdf", [6], false)] =
      ([1, 2, 3, 4, 5, 6], 6) ∧
    merge_pdfs [("0001 - a.pdf", [1, 2], false),
      ("0002 - b.pdf", [], true), ("0003 - c.pdf", [6], false)] =
      ([1, 2, 6], 3) ∧
    merge_parts [("0001 - a.pdf", [1, 2], false),
      ("0002 - b.pdf", [], true), ("0003 - c.pdf", [6], false)] =
      ["0001 - a.pdf", "0002 - b.pdf", "0003 - c.pdf"] := by
  refine ⟨?_, by decide, by decide, by decide⟩
  unfold merge_pdfs
  rw [merge_foldl dir (merge_parts dir) [] 0]
  exact ⟨by simp, by simp⟩

/-- C10 counterexample to "page count equals the sum of page counts of
all parseable PDF files": the lazy page loop writes and counts the
pages a failing file yields before its exception, so a leftover file
that yields one page and then raises still adds that page.  In the
directory `c10dir` (that leftover plus a fresh 1-page artifact) the
merge counts 2 pages, while the fully parseable selected files hold
only 1. -/
theorem claim_C10_cex :
    merge_pdfs c10dir = ([9, 42], 2) ∧
    ((((merge_parts c10dir).filter
        (fun f => ! readRaises c10dir f)).map
      (readPages c10dir)).flatten.length = 1) ∧
    merge_parts c10dir = ["0000 - broken.pdf", "0001 - cap1.html.pdf"] ∧
    (2 : Nat) ≠ 1 := by
  exact ⟨by decide, by decide, by decide, by decide⟩

/-- C10 (amended).  The merger selects every file of the output
directory whose name ends in `.pdf` case-insensitively — including
files left from earlier runs, since the directory is created with
`exist_ok=True` and never cleared, so after a render the directory is
the old contents plus the new artifacts — and the merged page count is
the total number of pages the lazy parse yields over all selected
files, counting the pages a failing file yields before its exception.
Concretely, a leftover `0000 - leftover.PDF` with 2 pages plus one
freshly rendered 1-page artifact merge to 3 pages. -/
theorem claim_C10 (old : List (String × List Nat × Bool))
    (outcome : Nat → String → PageOutcome)
    (pages : Nat → String → List Nat) (urls : List String) :
    (∀ f, f ∈ merge_parts (old ++ asDir (print_to_pdf_artifacts outcome pages urls)) ↔
      (f ∈ (old ++ asDir (print_to_pdf_artifacts outcome pages urls)).map Prod.fst ∧
       ".pdf".data.isSuffixOf (asciiLower f.data) = true)) ∧
    ((merge_pdfs (old ++ asDir (print_to_pdf_artifacts outcome pages urls))).2 =
      ((merge_parts (old ++ asDir (print_to_pdf_artifacts outcome pages urls))).map
        (readPages (old ++ asDir (print_to_pdf_artifacts outcome pages urls)))).flatten.length) ∧
    merge_pdfs ([("0000 - leftover.PDF", [7, 8], false)] ++
      asDir (print_to_pdf_artifacts (fun _ _ => PageOutcome.success)
        (fun _ _ => [42])
        ["https://engsoftmoderna.info/cap1.html"])) = ([7, 8, 42], 3) := by
  refine ⟨?_, ?_, by decide⟩
  · intro f
    unfold merge_parts
    constructor
    · intro hf
      have hf2 := (List.perm_insertionSort strLe _).mem_iff.mp hf
      exact ⟨(List.mem_filter.mp hf2).1, (List.mem_filter.mp hf2).2⟩
    · intro hf
      refine (List.perm_insertionSort strLe _).mem_iff.mpr ?_
      exact List.mem_filter.mpr ⟨hf.1, hf.2⟩
  · unfold merge_pdfs
    rw [merge_foldl _ _ [] 0]
    simp


/-! ## ASCII case-folding facts -/

theorem char_toNat_ofNat (n : Nat) (h : n.isValidChar) :
    (Char.ofNat n).toNat = n := by
  unfold Char.ofNat
  rw [dif_pos h]
  rfl

/-- The numeric behaviour of `Char.toLower`. -/
theorem toLower_toNat (c : Char) :
    c.toLower.toNat =
      if 65 ≤ c.toNat ∧ c.toNat ≤ 90 then c.toNat + 32 else c.toNat := by
  unfold Char.toLower
  by_cases h : c.toNat ≥ 65 ∧ c.toNat ≤ 90
  · rw [if_pos h, if_pos ⟨h.1, h.2⟩]
    exact char_toNat_ofNat _ (Or.inl (by omega))
  · rw [if_neg h, if_neg (by omega : ¬(65 ≤ c.toNat ∧ c.toNat ≤ 90))]

theorem toLower_fix {c : Char} (h : ¬(65 ≤ c.toNat ∧ c.toNat ≤ 90)) :
    c.toLower = c :=
  char_toNat_inj (by rw [toLower_toNat, if_neg h])

/-- Lowercasing fixes every character below `a` (digits, punctuation,
separators, control characters), so it is injective into that range. -/
theorem toLower_eq_of_small {c t : Char} (ht : t.toNat < 97)
    (h : c.toLower = t) : c = t := by
  have hn := congrArg Char.toNat h
  rw [toLower_toNat] at hn
  by_cases hc : 65 ≤ c.toNat ∧ c.toNat ≤ 90
  · rw [if_pos hc] at hn
    omega
  · rw [if_neg hc] at hn
    exact char_toNat_inj hn

/-- A character that lowercases to a lowercase letter is a letter. -/
theorem isAlpha_of_toLower {c t : Char} (h : c.toLower = t)
    (ht : 97 ≤ t.toNat ∧ t.toNat ≤ 122) : c.isAlpha = true := by
  have hn := congrArg Char.toNat h
  rw [toLower_toNat] at hn
  rw [Char.isAlpha, Bool.or_eq_true, Char.isUpper, Char.isLower,
    Bool.and_eq_true, Bool.and_eq_true, decide_eq_true_iff, decide_eq_true_iff,
    decide_eq_true_iff, decide_eq_true_iff]
  by_cases hc : 65 ≤ c.toNat ∧ c.toNat ≤ 90
  · exact Or.inl ⟨hc.1, hc.2⟩
  · rw [if_neg hc] at hn
    refine Or.inr ⟨?_, ?_⟩
    · show 97 ≤ c.toNat
      omega
    · show c.toNat ≤ 122
      omega

theorem toLower_not_upper (c : Char) :
    ¬(65 ≤ c.toLower.toNat ∧ c.toLower.toNat ≤ 90) := by
  rw [toLower_toNat]
  by_cases hc : 65 ≤ c.toNat ∧ c.toNat ≤ 90
  · rw [if_pos hc]
    omega
  · rw [if_neg hc]
    omega

theorem toLower_idem (c : Char) : c.toLower.toLower = c.toLower :=
  toLower_fix (toLower_not_upper c)

theorem asciiLower_idem (l : List Char) :
    asciiLower (asciiLower l) = asciiLower l := by
  unfold asciiLower
  rw [List.map_map]
  refine List.map_congr_left ?_
  intro c _
  exact toLower_idem c

/-- Characters satisfying one boolean class are distinct from any
character falsifying it. -/
theorem ne_of_pred {p : Char → Bool} {c t : Char} (h1 : p c = true)
    (h2 : p t = false) : c ≠ t := by
  intro he
  rw [he, h2] at h1
  cases h1

theorem schemeChar_of_isAlpha {c : Char} (h : c.isAlpha = true) :
    schemeChar c = true := by
  rw [schemeChar, h]
  rfl

theorem schemeChar_toLower {c : Char} (h : schemeChar c = true) :
    schemeChar c.toLower = true := by
  by_cases hu : 65 ≤ c.toNat ∧ c.toNat ≤ 90
  · have hlt : 97 ≤ c.toLower.toNat ∧ c.toLower.toNat ≤ 122 := by
      rw [toLower_toNat, if_pos hu]
      omega
    have ha : c.toLower.isAlpha = true := by
      rw [Char.isAlpha, Char.isLower, Bool.or_eq_true, Bool.and_eq_true,
        decide_eq_true_iff, decide_eq_true_iff]
      exact Or.inr ⟨hlt.1, hlt.2⟩
    rw [schemeChar, ha]
    rfl
  · rw [toLower_fix hu]
    exact h


/-! ## Scanning helpers -/

theorem takeWhile_all {p : Char → Bool} :
    ∀ {l : List Char}, (∀ c ∈ l, p c = true) → l.takeWhile p = l := by
  intro l
  induction l with
  | nil => intro _; rfl
  | cons a l ih =>
    intro h
    rw [List.takeWhile_cons_of_pos (h a (List.mem_cons_self a l))]
    rw [ih (fun c hc => h c (List.mem_cons_of_mem a hc))]

theorem dropWhile_all {p : Char → Bool} :
    ∀ {l : List Char}, (∀ c ∈ l, p c = true) → l.dropWhile p = [] := by
  intro l
  induction l with
  | nil => intro _; rfl
  | cons a l ih =>
    intro h
    rw [List.dropWhile_cons_of_pos (h a (List.mem_cons_self a l))]
    exact ih (fun c hc => h c (List.mem_cons_of_mem a hc))

theorem takeWhile_append_all {p : Char → Bool} {l1 l2 : List Char}
    (h : ∀ c ∈ l1, p c = true) :
    (l1 ++ l2).takeWhile p = l1 ++ l2.takeWhile p := by
  induction l1 with
  | nil => rfl
  | cons a l1 ih =>
    rw [List.cons_append,
      List.takeWhile_cons_of_pos (h a (List.mem_cons_self a l1)),
      ih (fun c hc => h c (List.mem_cons_of_mem a hc)), List.cons_append]

theorem dropWhile_append_all {p : Char → Bool} {l1 l2 : List Char}
    (h : ∀ c ∈ l1, p c = true) :
    (l1 ++ l2).dropWhile p = l2.dropWhile p := by
  induction l1 with
  | nil => rfl
  | cons a l1 ih =>
    rw [List.cons_append,
      List.dropWhile_cons_of_pos (h a (List.mem_cons_self a l1)),
      ih (fun c hc => h c (List.mem_cons_of_mem a hc))]

/-- `splitFirst` on a list not containing the separator. -/
theorem splitFirst_of_not_mem {c0 : Char} {l : List Char} (h : c0 ∉ l) :
    splitFirst c0 l = (l, []) := by
  unfold splitFirst
  have hall : ∀ c ∈ l, (!(c == c0)) = true := by
    intro c hc
    simp only [Bool.not_eq_true']
    refine beq_eq_false_iff_ne.mpr ?_
    intro he
    exact h (he ▸ hc)
  rw [takeWhile_all hall, dropWhile_all hall]
  rfl

/-- `splitFirst` around an explicit first occurrence. -/
theorem splitFirst_append {c0 : Char} {l1 l2 : List Char} (h : c0 ∉ l1) :
    splitFirst c0 (l1 ++ c0 :: l2) = (l1, l2) := by
  unfold splitFirst
  have hall : ∀ c ∈ l1, (!(c == c0)) = true := by
    intro c hc
    simp only [Bool.not_eq_true']
    refine beq_eq_false_iff_ne.mpr ?_
    intro he
    exact h (he ▸ hc)
  rw [takeWhile_append_all hall, dropWhile_append_all hall]
  rw [List.takeWhile_cons_of_neg (by simp), List.dropWhile_cons_of_neg (by simp)]
  simp

/-- Characters of `splitFirst` components come from the input. -/
theorem splitFirst_fst_sub {c0 : Char} {l : List Char} :
    ∀ c ∈ (splitFirst c0 l).1, c ∈ l := by
  intro c hc
  exact (List.takeWhile_sublist _).mem hc

theorem splitFirst_snd_sub {c0 : Char} {l : List Char} :
    ∀ c ∈ (splitFirst c0 l).2, c ∈ l := by
  intro c hc
  have h1 : c ∈ l.dropWhile (fun a => !(a == c0)) :=
    (List.drop_sublist 1 _).mem hc
  exact (List.dropWhile_sublist _).mem h1

/-- The first component of `splitFirst` never contains the separator. -/
theorem splitFirst_fst_not_mem (c0 : Char) (l : List Char) :
    c0 ∉ (splitFirst c0 l).1 := by
  intro hc
  have := List.mem_takeWhile_imp hc
  simp at this


/-! ## Components of a split URL -/

theorem removeUnsafe_clean {l : List Char} {c : Char}
    (hc : c = '\t' ∨ c = '\r' ∨ c = '\n') : c ∉ removeUnsafe l := by
  intro hmem
  have := (List.mem_filter.mp hmem).2
  rcases hc with h | h | h <;> subst h <;> simp at this

theorem removeUnsafe_sub {l : List Char} : ∀ c ∈ removeUnsafe l, c ∈ l := by
  intro c hc
  exact (List.filter_sublist l).mem hc

theorem detectScheme_snd_sub {url dflt : List Char} :
    ∀ c ∈ (detectScheme url dflt).2, c ∈ url := by
  intro c hc
  simp only [detectScheme] at hc
  split at hc
  · exact (List.drop_sublist _ _).mem hc
  · exact hc

theorem detectScheme_fst_sub {url dflt : List Char} :
    ∀ c ∈ (detectScheme url dflt).1,
      (∃ d ∈ url, d.toLower = c) ∨ c ∈ dflt := by
  intro c hc
  simp only [detectScheme] at hc
  split at hc
  · obtain ⟨d, hd, hdc⟩ := List.mem_map.mp hc
    exact Or.inl ⟨d, (List.takeWhile_sublist _).mem hd, hdc⟩
  · exact Or.inr hc

theorem splitNetloc_fst_sub {l : List Char} :
    ∀ c ∈ (splitNetloc l).1, c ∈ l := by
  intro c hc
  unfold splitNetloc at hc
  exact (List.drop_sublist _ _).mem ((List.takeWhile_sublist _).mem hc)

theorem splitNetloc_snd_sub {l : List Char} :
    ∀ c ∈ (splitNetloc l).2, c ∈ l := by
  intro c hc
  unfold splitNetloc at hc
  exact (List.drop_sublist _ _).mem ((List.dropWhile_sublist _).mem hc)

/-- The netloc component never contains `/`, `?` or `#`. -/
theorem pyUrlsplit_netloc_chars (u0 s0 : List Char) :
    ∀ c ∈ (pyUrlsplit u0 s0).netloc, c ≠ '/' ∧ c ≠ '?' ∧ c ≠ '#' := by
  intro c hc
  simp only [pyUrlsplit] at hc
  split at hc
  · unfold splitNetloc at hc
    have := List.mem_takeWhile_imp hc
    simp only [Bool.not_eq_true', Bool.or_eq_false_iff, beq_eq_false_iff_ne]
      at this
    exact ⟨this.1.1, this.1.2, this.2⟩
  · cases hc

/-- The path component never contains `#` or `?`. -/
theorem pyUrlsplit_path_chars (u0 s0 : List Char) :
    '#' ∉ (pyUrlsplit u0 s0).path ∧ '?' ∉ (pyUrlsplit u0 s0).path := by
  constructor
  · intro hc
    simp only [pyUrlsplit] at hc
    exact splitFirst_fst_not_mem '#' _ (splitFirst_fst_sub _ hc)
  · intro hc
    simp only [pyUrlsplit] at hc
    exact splitFirst_fst_not_mem '?' _ hc

/-- The query component never contains `#`. -/
theorem pyUrlsplit_query_chars (u0 s0 : List Char) :
    '#' ∉ (pyUrlsplit u0 s0).query := by
  intro hc
  simp only [pyUrlsplit] at hc
  exact splitFirst_fst_not_mem '#' _ (splitFirst_snd_sub _ hc)

/-- Non-scheme components draw their characters from the cleaned URL. -/
theorem pyUrlsplit_sub (u0 s0 : List Char) (c : Char)
    (hc : c ∈ (pyUrlsplit u0 s0).netloc ∨ c ∈ (pyUrlsplit u0 s0).path ∨
      c ∈ (pyUrlsplit u0 s0).query ∨ c ∈ (pyUrlsplit u0 s0).fragment) :
    c ∈ removeUnsafe u0 := by
  simp only [pyUrlsplit] at hc
  have step : ∀ x ∈ (if (detectScheme (removeUnsafe u0) (removeUnsafe s0)).2.take 2
        = ['/', '/'] then splitNetloc (detectScheme (removeUnsafe u0)
          (removeUnsafe s0)).2
      else ([], (detectScheme (removeUnsafe u0) (removeUnsafe s0)).2)).2,
      x ∈ removeUnsafe u0 := by
    intro x hx
    split at hx
    · exact detectScheme_snd_sub _ (splitNetloc_snd_sub _ hx)
    · exact detectScheme_snd_sub _ hx
  rcases hc with h | h | h | h
  · split at h
    · exact detectScheme_snd_sub _ (splitNetloc_fst_sub _ h)
    · cases h
  · exact step _ (splitFirst_fst_sub _ (splitFirst_fst_sub _ h))
  · exact step _ (splitFirst_fst_sub _ (splitFirst_snd_sub _ h))
  · exact step _ (splitFirst_snd_sub _ h)

/-- The scheme component: either the (cleaned) default, or the
lowercasing of scheme characters drawn from the cleaned URL. -/
theorem pyUrlsplit_scheme_cases (u0 s0 : List Char) :
    (pyUrlsplit u0 s0).scheme = removeUnsafe s0 ∨
    ((pyUrlsplit u0 s0).scheme ≠ [] ∧
     (∀ c ∈ (pyUrlsplit u0 s0).scheme, schemeChar c = true) ∧
     asciiLower (pyUrlsplit u0 s0).scheme = (pyUrlsplit u0 s0).scheme ∧
     (∀ c ∈ (pyUrlsplit u0 s0).scheme, ∃ d ∈ removeUnsafe u0, d.toLower = c)) := by
  have hsch : (pyUrlsplit u0 s0).scheme =
      (detectScheme (removeUnsafe u0) (removeUnsafe s0)).1 := by
    simp only [pyUrlsplit]
  rw [hsch]
  simp only [detectScheme]
  split
  · rename_i hcond
    right
    obtain ⟨h1, h2, h3, h4⟩ := hcond
    refine ⟨?_, ?_, ?_, ?_⟩
    · intro he
      unfold asciiLower at he
      rw [List.map_eq_nil_iff] at he
      rw [he] at h2
      cases h2
    · intro c hc
      obtain ⟨d, hd, hdc⟩ := List.mem_map.mp hc
      have := List.all_eq_true.mp h4 d hd
      exact hdc ▸ schemeChar_toLower this
    · exact asciiLower_idem _
    · intro c hc
      obtain ⟨d, hd, hdc⟩ := List.mem_map.mp hc
      exact ⟨d, (List.takeWhile_sublist _).mem hd, hdc⟩
  · exact Or.inl rfl

/-- All five components are free of tab, CR and LF. -/
theorem pyUrlsplit_clean (u0 s0 : List Char) (c : Char)
    (hc : c = '\t' ∨ c = '\r' ∨ c = '\n') :
    c ∉ (pyUrlsplit u0 s0).scheme ∧ c ∉ (pyUrlsplit u0 s0).netloc ∧
    c ∉ (pyUrlsplit u0 s0).path ∧ c ∉ (pyUrlsplit u0 s0).query ∧
    c ∉ (pyUrlsplit u0 s0).fragment := by
  have hsmall : c.toNat < 97 := by
    rcases hc with h | h | h <;> subst h <;> decide
  refine ⟨?_, ?_, ?_, ?_, ?_⟩
  · intro h
    rcases pyUrlsplit_scheme_cases u0 s0 with hs | ⟨_, _, _, hs⟩
    · rw [hs] at h
      exact removeUnsafe_clean hc h
    · obtain ⟨d, hd, hdc⟩ := hs c h
      have := toLower_eq_of_small hsmall hdc
      rw [this] at hd
      exact removeUnsafe_clean hc hd
  · intro h
    exact removeUnsafe_clean hc (pyUrlsplit_sub u0 s0 c (Or.inl h))
  · intro h
    exact removeUnsafe_clean hc (pyUrlsplit_sub u0 s0 c (Or.inr (Or.inl h)))
  · intro h
    exact removeUnsafe_clean hc (pyUrlsplit_sub u0 s0 c (Or.inr (Or.inr (Or.inl h))))
  · intro h
    exact removeUnsafe_clean hc (pyUrlsplit_sub u0 s0 c (Or.inr (Or.inr (Or.inr h))))


/-! ## Components of a parsed URL and reassembly -/

theorem pyUrlparse_scheme (u0 s0 : List Char) :
    (pyUrlparse u0 s0).scheme = (pyUrlsplit u0 s0).scheme := by
  simp only [pyUrlparse]
  split <;> rfl

theorem pyUrlparse_netloc (u0 s0 : List Char) :
    (pyUrlparse u0 s0).netloc = (pyUrlsplit u0 s0).netloc := by
  simp only [pyUrlparse]
  split <;> rfl

theorem pyUrlparse_query (u0 s0 : List Char) :
    (pyUrlparse u0 s0).query = (pyUrlsplit u0 s0).query := by
  simp only [pyUrlparse]
  split <;> rfl

theorem pyUrlparse_fragment (u0 s0 : List Char) :
    (pyUrlparse u0 s0).fragment = (pyUrlsplit u0 s0).fragment := by
  simp only [pyUrlparse]
  split <;> rfl

theorem pySplitParams_fst_sub {x : List Char} :
    ∀ c ∈ (pySplitParams x).1, c ∈ x := by
  intro c hc
  simp only [pySplitParams] at hc
  split at hc
  · split at hc
    · rcases List.mem_append.mp hc with h | h
      · exact (List.take_sublist _ _).mem h
      · have h2 := (List.takeWhile_sublist _).mem h
        rw [List.mem_reverse] at h2
        have h3 := (List.takeWhile_sublist _).mem h2
        rw [List.mem_reverse] at h3
        exact h3
    · exact hc
  · exact (List.takeWhile_sublist _).mem hc

theorem pySplitParams_snd_sub {x : List Char} :
    ∀ c ∈ (pySplitParams x).2, c ∈ x := by
  intro c hc
  simp only [pySplitParams] at hc
  split at hc
  · split at hc
    · have h1 := (List.dropWhile_sublist _).mem ((List.drop_sublist _ _).mem hc)
      rw [List.mem_reverse] at h1
      have h2 := (List.takeWhile_sublist _).mem h1
      rw [List.mem_reverse] at h2
      exact h2
    · cases hc
  · exact (List.dropWhile_sublist _).mem ((List.drop_sublist _ _).mem hc)

theorem pyUrlparse_path_params_sub (u0 s0 : List Char) (c : Char)
    (hc : c ∈ (pyUrlparse u0 s0).path ∨ c ∈ (pyUrlparse u0 s0).params) :
    c ∈ (pyUrlsplit u0 s0).path := by
  simp only [pyUrlparse] at hc
  split at hc
  · rcases hc with h | h
    · exact pySplitParams_fst_sub _ h
    · exact pySplitParams_snd_sub _ h
  · rcases hc with h | h
    · exact h
    · cases h

/-- Characters of the reassembled URL with empty query and fragment. -/
theorem pyUrlunsplit_chars {scheme netloc url : List Char} {c : Char}
    (hc : c ∈ pyUrlunsplit scheme netloc url [] []) :
    c ∈ scheme ∨ c ∈ netloc ∨ c ∈ url ∨ c = ':' ∨ c = '/' := by
  unfold pyUrlunsplit at hc
  simp only [List.isEmpty_nil, not_true_eq_false, if_false] at hc
  split at hc
  · rcases List.mem_append.mp hc with h | h
    · exact Or.inl h
    · rcases List.mem_cons.mp h with h2 | h2
      · exact Or.inr (Or.inr (Or.inr (Or.inl h2)))
      · split at h2
        · rcases List.mem_cons.mp h2 with h3 | h3
          · exact Or.inr (Or.inr (Or.inr (Or.inr h3)))
          · rcases List.mem_cons.mp h3 with h4 | h4
            · exact Or.inr (Or.inr (Or.inr (Or.inr h4)))
            · rcases List.mem_append.mp h4 with h5 | h5
              · exact Or.inr (Or.inl h5)
              · split at h5
                · rcases List.mem_cons.mp h5 with h6 | h6
                  · exact Or.inr (Or.inr (Or.inr (Or.inr h6)))
                  · exact Or.inr (Or.inr (Or.inl h6))
                · exact Or.inr (Or.inr (Or.inl h5))
        · exact Or.inr (Or.inr (Or.inl h2))
  · split at hc
    · rcases List.mem_cons.mp hc with h3 | h3
      · exact Or.inr (Or.inr (Or.inr (Or.inr h3)))
      · rcases List.mem_cons.mp h3 with h4 | h4
        · exact Or.inr (Or.inr (Or.inr (Or.inr h4)))
        · rcases List.mem_append.mp h4 with h5 | h5
          · exact Or.inr (Or.inl h5)
          · split at h5
            · rcases List.mem_cons.mp h5 with h6 | h6
              · exact Or.inr (Or.inr (Or.inr (Or.inr h6)))
              · exact Or.inr (Or.inr (Or.inl h6))
            · exact Or.inr (Or.inr (Or.inl h5))
    · exact Or.inr (Or.inr (Or.inl hc))


/-! ## C7: the normalizer discards foreign origins and strips
query/fragment -/

/-- What a non-empty `normalize` result is: the cleaned resolution of
the stripped href, which passed the domain test and the extension
test. -/
theorem normalize_eq_some {href s : String} (h : normalize href = s)
    (hne : s ≠ "") :
    s.data = resolvedClean (pyStrip href.data) ∧
    HTML_OK_matches s.data = true ∧ endsWithSkipExt s.data = false := by
  unfold normalize at h
  by_cases h1 : href.data.isEmpty = true
  · rw [if_pos h1] at h
    exact absurd h.symm hne
  · rw [if_neg h1] at h
    by_cases h2 : (pyStrip href.data).take 1 = ['#']
    · rw [if_pos h2] at h
      exact absurd h.symm hne
    · rw [if_neg h2] at h
      by_cases h3 : ¬HTML_OK_matches (resolvedClean (pyStrip href.data)) = true
      · rw [if_pos h3] at h
        exact absurd h.symm hne
      · rw [if_neg h3] at h
        by_cases h4 : endsWithSkipExt (resolvedClean (pyStrip href.data)) = true
        · rw [if_pos h4] at h
          exact absurd h.symm hne
        · rw [if_neg h4] at h
          have hdata : s.data = resolvedClean (pyStrip href.data) :=
            (congrArg String.data h).symm
          rw [hdata]
          constructor
          · rfl
          · constructor
            · exact Bool.not_not_eq.mp (by simpa using h3)
            · simpa using h4

/-- If the resolved, query/fragment-cleared URL fails the domain regex,
`normalize` returns the empty string. -/
theorem normalize_empty_of_not_internal {href : String}
    (h : HTML_OK_matches (resolvedClean (pyStrip href.data)) = false) :
    normalize href = "" := by
  unfold normalize
  by_cases h1 : href.data.isEmpty = true
  · rw [if_pos h1]
  · rw [if_neg h1]
    by_cases h2 : (pyStrip href.data).take 1 = ['#']
    · rw [if_pos h2]
    · rw [if_neg h2]
      rw [if_pos (by simp [h])]

/-- A non-empty `normalize` result contains neither `#` nor `?`. -/
theorem normalize_no_hash_query {href s : String} (h : normalize href = s)
    (hne : s ≠ "") : '#' ∉ s.data ∧ '?' ∉ s.data := by
  obtain ⟨habs, _, _⟩ := normalize_eq_some h hne
  rw [habs]
  unfold resolvedClean
  constructor
  · intro hc
    have h1 := pyUrlunsplit_chars (by
      unfold pyUrlunparse clearQF at hc
      exact hc)
    rcases h1 with h2 | h2 | h2 | h2 | h2
    · rw [pyUrlparse_scheme] at h2
      rcases pyUrlsplit_scheme_cases (pyUrljoin BASE.data (pyStrip href.data)) []
        with hs | ⟨_, hs, _, _⟩
      · rw [hs] at h2
        cases h2
      · have := hs _ h2
        exact absurd this (by decide)
    · rw [pyUrlparse_netloc] at h2
      exact (pyUrlsplit_netloc_chars _ _ _ h2).2.2 rfl
    · split at h2
      · rcases List.mem_append.mp h2 with h3 | h3
        · exact (pyUrlsplit_path_chars _ _).1
            (pyUrlparse_path_params_sub _ _ _ (Or.inl h3))
        · rcases List.mem_cons.mp h3 with h4 | h4
          · cases h4
          · exact (pyUrlsplit_path_chars _ _).1
              (pyUrlparse_path_params_sub _ _ _ (Or.inr h4))
      · exact (pyUrlsplit_path_chars _ _).1
          (pyUrlparse_path_params_sub _ _ _ (Or.inl h2))
    · cases h2
    · cases h2
  · intro hc
    have h1 := pyUrlunsplit_chars (by
      unfold pyUrlunparse clearQF at hc
      exact hc)
    rcases h1 with h2 | h2 | h2 | h2 | h2
    · rw [pyUrlparse_scheme] at h2
      rcases pyUrlsplit_scheme_cases (pyUrljoin BASE.data (pyStrip href.data)) []
        with hs | ⟨_, hs, _, _⟩
      · rw [hs] at h2
        cases h2
      · have := hs _ h2
        exact absurd this (by decide)
    · rw [pyUrlparse_netloc] at h2
      exact (pyUrlsplit_netloc_chars _ _ _ h2).2.1 rfl
    · split at h2
      · rcases List.mem_append.mp h2 with h3 | h3
        · exact (pyUrlsplit_path_chars _ _).2
            (pyUrlparse_path_params_sub _ _ _ (Or.inl h3))
        · rcases List.mem_cons.mp h3 with h4 | h4
          · cases h4
          · exact (pyUrlsplit_path_chars _ _).2
              (pyUrlparse_path_params_sub _ _ _ (Or.inr h4))
      · exact (pyUrlsplit_path_chars _ _).2
          (pyUrlparse_path_params_sub _ _ _ (Or.inl h2))
    · cases h2
    · cases h2

/-- C7.  The normalizer maps every href whose resolution (against
`BASE`, with query and fragment cleared) falls outside the configured
domain to the empty string; a non-empty result never carries a
fragment (`#`) or query (`?`) character; `"#section"` normalizes to
the empty string; and `"/cap1.html?x=1#y"` normalizes to
`"https://engsoftmoderna.info/cap1.html"`.  The `normalizeOk`
hypothesis restricts the first part to hrefs on which CPython's
`urlsplit` does not raise. -/
theorem claim_C7 :
    (∀ href : String, normalizeOk href = true →
      HTML_OK_matches (resolvedClean (pyStrip href.data)) = false →
      normalize href = "") ∧
    (∀ href s : String, normalize href = s → s ≠ "" →
      '#' ∉ s.data ∧ '?' ∉ s.data) ∧
    normalize "#section" = "" ∧
    normalize "/cap1.html?x=1#y" = "https://engsoftmoderna.info/cap1.html" := by
  refine ⟨?_, ?_, by decide, by decide⟩
  · intro href _ h
    exact normalize_empty_of_not_internal h
  · intro href s h hne
    exact normalize_no_hash_query h hne

/-- Witness for C7 at concrete inputs: a foreign-origin URL maps to the
empty string; a same-origin path keeps neither `#` nor `?`. -/
theorem claim_C7_witness :
    normalize "https://other.example/page.html" = "" ∧
    ('#' ∉ (normalize "/cap2.html?q=1#frag").data ∧
     '?' ∉ (normalize "/cap2.html?q=1#frag").data) :=
  ⟨claim_C7.1 "https://other.example/page.html" (by decide) (by decide),
   claim_C7.2.1 "/cap2.html?q=1#frag" (normalize "/cap2.html?q=1#frag") rfl
     (by decide)⟩

/-! ## C8 groundwork: the last path segment and the params round trip -/

theorem takeWhile_length_eq {p : Char → Bool} {l : List Char}
    (h : (l.takeWhile p).length = l.length) : l.takeWhile p = l := by
  have h2 := List.takeWhile_append_dropWhile p l
  have h3 := congrArg List.length h2
  rw [List.length_append] at h3
  have h4 : (l.dropWhile p).length = 0 := by omega
  rw [List.length_eq_zero] at h4
  rw [h4, List.append_nil] at h2
  exact h2

theorem dropWhile_ne_eq_cons {a : Char} {l : List Char} (h : a ∈ l) :
    l.dropWhile (fun c => !(c == a)) =
      a :: (l.dropWhile (fun c => !(c == a))).drop 1 := by
  induction l with
  | nil => cases h
  | cons b t ih =>
    by_cases hb : b = a
    · subst hb
      rw [List.dropWhile_cons_of_neg (by simp)]
      rfl
    · have hmem : a ∈ t := by
        rcases List.mem_cons.mp h with h' | h'
        · exact absurd h'.symm hb
        · exact h'
      rw [List.dropWhile_cons_of_pos (by simp [hb])]
      exact ih hmem

theorem takeWhile_first {a : Char} {pre post : List Char} (hpre : a ∉ pre) :
    (pre ++ a :: post).takeWhile (fun c => !(c == a)) = pre := by
  rw [takeWhile_append_all (by
    intro c hc
    have hne : c ≠ a := fun heq => hpre (heq ▸ hc)
    simp [hne])]
  rw [List.takeWhile_cons_of_neg (by simp), List.append_nil]

theorem dropWhile_first {a : Char} {pre post : List Char} (hpre : a ∉ pre) :
    (pre ++ a :: post).dropWhile (fun c => !(c == a)) = a :: post := by
  rw [dropWhile_append_all (by
    intro c hc
    have hne : c ≠ a := fun heq => hpre (heq ▸ hc)
    simp [hne])]
  rw [List.dropWhile_cons_of_neg (by simp)]

theorem mem_contains {a : Char} {l : List Char} : l.contains a = true ↔ a ∈ l :=
  List.elem_iff

/-! ### Facts about `lastSeg` and `dirPart` -/

theorem lastSeg_decomp (l : List Char) :
    (l.reverse.dropWhile (fun c => !(c == '/'))).reverse ++ lastSeg l = l := by
  unfold lastSeg
  rw [← List.reverse_append, List.takeWhile_append_dropWhile, List.reverse_reverse]

theorem dirPart_eq (l : List Char) :
    dirPart l = (l.reverse.dropWhile (fun c => !(c == '/'))).reverse := by
  have hd := lastSeg_decomp l
  have h := congrArg List.length hd
  rw [List.length_append] at h
  unfold dirPart
  calc List.take (l.length - (lastSeg l).length) l
      = List.take (l.length - (lastSeg l).length)
          ((l.reverse.dropWhile (fun c => !(c == '/'))).reverse ++ lastSeg l) := by
        rw [hd]
    _ = (l.reverse.dropWhile (fun c => !(c == '/'))).reverse :=
        List.take_left' (by omega)

theorem dirPart_append_lastSeg (l : List Char) : dirPart l ++ lastSeg l = l := by
  rw [dirPart_eq]
  exact lastSeg_decomp l

theorem lastSeg_no_slash (l : List Char) : '/' ∉ lastSeg l := by
  intro hmem
  unfold lastSeg at hmem
  rw [List.mem_reverse] at hmem
  have h := List.mem_takeWhile_imp hmem
  simp at h

theorem lastSeg_sub (l : List Char) : ∀ c ∈ lastSeg l, c ∈ l := by
  intro c hc
  unfold lastSeg at hc
  rw [List.mem_reverse] at hc
  have h := (List.takeWhile_sublist _).mem hc
  rwa [List.mem_reverse] at h

theorem lastSeg_of_no_slash {l : List Char} (h : '/' ∉ l) : lastSeg l = l := by
  unfold lastSeg
  have htw : l.reverse.takeWhile (fun c => !(c == '/')) = l.reverse := by
    apply takeWhile_all
    intro a ha
    rw [List.mem_reverse] at ha
    have hne : a ≠ '/' := fun heq => h (heq ▸ ha)
    simp [hne]
  rw [htw, List.reverse_reverse]

theorem lastSeg_append_no_slash {a b : List Char} (h : '/' ∉ b) :
    lastSeg (a ++ b) = lastSeg a ++ b := by
  unfold lastSeg
  rw [List.reverse_append]
  rw [takeWhile_append_all (by
    intro c hc
    rw [List.mem_reverse] at hc
    have hne : c ≠ '/' := fun heq => h (heq ▸ hc)
    simp [hne])]
  rw [List.reverse_append, List.reverse_reverse]

theorem lastSeg_cons_of_mem {c : Char} {p : List Char} (h : '/' ∈ p) :
    lastSeg (c :: p) = lastSeg p := by
  unfold lastSeg
  have hrev : (c :: p).reverse = p.reverse ++ [c] := by simp
  rw [hrev, List.takeWhile_append]
  have hne : (p.reverse.takeWhile (fun x => !(x == '/'))).length
      ≠ p.reverse.length := by
    intro heq
    have h2 := takeWhile_length_eq heq
    have hm : '/' ∈ p.reverse.takeWhile (fun x => !(x == '/')) := by
      rw [h2, List.mem_reverse]
      exact h
    have h3 := List.mem_takeWhile_imp hm
    simp at h3
  rw [if_neg hne]

theorem lastSeg_cons_of_not_mem {c : Char} {p : List Char} (h : '/' ∉ p) :
    lastSeg (c :: p) = if c = '/' then p else c :: p := by
  unfold lastSeg
  have hrev : (c :: p).reverse = p.reverse ++ [c] := by simp
  have htw : p.reverse.takeWhile (fun x => !(x == '/')) = p.reverse := by
    apply takeWhile_all
    intro a ha
    rw [List.mem_reverse] at ha
    have hne : a ≠ '/' := fun heq => h (heq ▸ ha)
    simp [hne]
  rw [hrev, List.takeWhile_append, htw, if_pos rfl]
  by_cases hc : c = '/'
  · subst hc
    rw [if_pos rfl, List.takeWhile_cons_of_neg (by simp)]
    simp
  · rw [if_neg hc, List.takeWhile_cons_of_pos (by simp [hc])]
    simp

theorem lastSeg_concat_slash (y : List Char) : lastSeg (y ++ ['/']) = [] := by
  unfold lastSeg
  rw [List.reverse_append]
  simp only [List.reverse_cons, List.reverse_nil, List.nil_append,
    List.singleton_append]
  rw [List.takeWhile_cons_of_neg (by simp)]
  rfl

theorem dirPart_ends_slash {x : List Char} (h : '/' ∈ x) :
    ∃ y, dirPart x = y ++ ['/'] := by
  rw [dirPart_eq]
  have h2 := dropWhile_ne_eq_cons (a := '/') (l := x.reverse)
    (by rwa [List.mem_reverse])
  rw [h2, List.reverse_cons]
  exact ⟨_, rfl⟩

/-! ### `pySplitParams` in terms of `lastSeg` and `dirPart` -/

theorem pySplitParams_eq (x : List Char) :
    pySplitParams x =
      if x.contains '/' then
        (if (lastSeg x).contains ';' then
          (dirPart x ++ (lastSeg x).takeWhile (fun c => !(c == ';')),
           ((lastSeg x).dropWhile (fun c => !(c == ';'))).drop 1)
         else (x, []))
      else
        (x.takeWhile (fun c => !(c == ';')),
         (x.dropWhile (fun c => !(c == ';'))).drop 1) := by
  simp only [pySplitParams, lastSeg, dirPart]

/-! ### `joinPP`: reassembly and its interplay with the split -/

theorem joinPP_nil_right (a : List Char) : joinPP a [] = a := by
  unfold joinPP
  rw [if_neg (by simp)]

theorem joinPP_of_ne {a prm : List Char} (h : prm ≠ []) :
    joinPP a prm = a ++ ';' :: prm := by
  unfold joinPP
  rw [if_pos (by simp [List.isEmpty_iff, h])]

theorem joinPP_cons (c : Char) (p prm : List Char) :
    joinPP (c :: p) prm = c :: joinPP p prm := by
  by_cases h : ¬prm.isEmpty = true
  · unfold joinPP
    rw [if_pos h, if_pos h]
    rfl
  · unfold joinPP
    rw [if_neg h, if_neg h]

/-- Re-splitting any path yields a pair whose reassembly is a prefix of
that path (the split can only drop a lone trailing `;`). -/
theorem joinPP_splitParams_isPre (x : List Char) :
    ∃ y, joinPP (pySplitParams x).1 (pySplitParams x).2 ++ y = x := by
  rw [pySplitParams_eq]
  by_cases h1 : x.contains '/' = true
  · rw [if_pos h1]
    by_cases h2 : (lastSeg x).contains ';' = true
    · rw [if_pos h2]
      have hsem : ';' ∈ lastSeg x := mem_contains.mp h2
      have hdw := dropWhile_ne_eq_cons (a := ';') hsem
      have hre : (lastSeg x).takeWhile (fun c => !(c == ';')) ++
          (lastSeg x).dropWhile (fun c => !(c == ';')) = lastSeg x :=
        List.takeWhile_append_dropWhile _ _
      by_cases h3 :
          ((lastSeg x).dropWhile (fun c => !(c == ';'))).drop 1 = []
      · refine ⟨[';'], ?_⟩
        rw [h3, joinPP_nil_right]
        have hdw1 : (lastSeg x).dropWhile (fun c => !(c == ';')) = [';'] := by
          rw [hdw, h3]
        rw [List.append_assoc, ← hdw1, hre]
        exact dirPart_append_lastSeg x
      · refine ⟨[], ?_⟩
        rw [List.append_nil, joinPP_of_ne h3]
        rw [List.append_assoc, ← hdw, hre]
        exact dirPart_append_lastSeg x
    · rw [if_neg h2]
      exact ⟨[], by rw [List.append_nil, joinPP_nil_right]⟩
  · rw [if_neg h1]
    by_cases hsem : ';' ∈ x
    · have hdw := dropWhile_ne_eq_cons (a := ';') hsem
      have hre : x.takeWhile (fun c => !(c == ';')) ++
          x.dropWhile (fun c => !(c == ';')) = x :=
        List.takeWhile_append_dropWhile _ _
      by_cases h3 : (x.dropWhile (fun c => !(c == ';'))).drop 1 = []
      · refine ⟨[';'], ?_⟩
        rw [h3, joinPP_nil_right]
        have hdw1 : x.dropWhile (fun c => !(c == ';')) = [';'] := by
          rw [hdw, h3]
        rw [← hdw1]
        exact hre
      · refine ⟨[], ?_⟩
        rw [List.append_nil, joinPP_of_ne h3, ← hdw]
        exact hre
    · refine ⟨[], ?_⟩
      rw [List.append_nil]
      have htw := takeWhile_all (p := fun c => !(c == ';')) (l := x) (by
        intro c hc
        have hne : c ≠ ';' := fun heq => hsem (heq ▸ hc)
        simp [hne])
      have hd := dropWhile_all (p := fun c => !(c == ';')) (l := x) (by
        intro c hc
        have hne : c ≠ ';' := fun heq => hsem (heq ▸ hc)
        simp [hne])
      rw [hd]
      show joinPP (x.takeWhile (fun c => !(c == ';'))) [] = x
      rw [joinPP_nil_right]
      exact htw

/-! ### `GoodPP`: production and stability -/

theorem GoodPP_no_semi {x : List Char} (h : ';' ∉ x) : GoodPP x [] := by
  refine ⟨by simp, fun hne => absurd rfl hne, fun _ => Or.inl h⟩

/-- The pair produced by `pySplitParams` always satisfies the
invariant. -/
theorem GoodPP_of_split (x : List Char) :
    GoodPP (pySplitParams x).1 (pySplitParams x).2 := by
  rw [pySplitParams_eq]
  by_cases h1 : x.contains '/' = true
  · rw [if_pos h1]
    by_cases h2 : (lastSeg x).contains ';' = true
    · rw [if_pos h2]
      obtain ⟨y, hy⟩ := dirPart_ends_slash (mem_contains.mp h1)
      have htwns : '/' ∉ (lastSeg x).takeWhile (fun c => !(c == ';')) :=
        fun hm => lastSeg_no_slash x ((List.takeWhile_sublist _).mem hm)
      have hls : ';' ∉ lastSeg (dirPart x ++
          (lastSeg x).takeWhile (fun c => !(c == ';'))) := by
        rw [lastSeg_append_no_slash htwns, hy, lastSeg_concat_slash,
          List.nil_append]
        intro hm
        have := List.mem_takeWhile_imp hm
        simp at this
      refine ⟨?_, fun _ => hls, fun _ => Or.inr ⟨?_, hls⟩⟩
      · intro hm
        exact lastSeg_no_slash x
          ((List.dropWhile_sublist _).mem ((List.drop_sublist _ _).mem hm))
      · rw [hy]
        exact List.mem_append.mpr (Or.inl
          (List.mem_append.mpr (Or.inr (List.mem_cons_self _ _))))
    · rw [if_neg h2]
      refine ⟨by simp, fun hne => absurd rfl hne, fun _ => Or.inr ⟨?_, ?_⟩⟩
      · exact mem_contains.mp h1
      · intro hm
        exact h2 (mem_contains.mpr hm)
  · rw [if_neg h1]
    have hxs : '/' ∉ x := fun hm => h1 (mem_contains.mpr hm)
    refine ⟨?_, ?_, fun _ => Or.inl ?_⟩
    · intro hm
      exact hxs ((List.dropWhile_sublist _).mem ((List.drop_sublist _ _).mem hm))
    · intro _
      rw [lastSeg_of_no_slash
        (fun hm => hxs ((List.takeWhile_sublist _).mem hm))]
      intro hm
      have := List.mem_takeWhile_imp hm
      simp at this
    · intro hm
      have := List.mem_takeWhile_imp hm
      simp at this

/-- Dropping a head character preserves the invariant. -/
theorem GoodPP_cons_front {c : Char} {p prm : List Char}
    (hg : GoodPP (c :: p) prm) : GoodPP p prm := by
  obtain ⟨h1, h2, h3⟩ := hg
  refine ⟨h1, ?_, ?_⟩
  · intro hne
    have h2' := h2 hne
    by_cases hp : '/' ∈ p
    · rwa [lastSeg_cons_of_mem hp] at h2'
    · rw [lastSeg_cons_of_not_mem hp] at h2'
      rw [lastSeg_of_no_slash hp]
      by_cases hc : c = '/'
      · rwa [if_pos hc] at h2'
      · rw [if_neg hc] at h2'
        exact fun hm => h2' (List.mem_cons_of_mem c hm)
  · intro hprm
    rcases h3 hprm with h4 | ⟨h4, h5⟩
    · exact Or.inl (fun hm => h4 (List.mem_cons_of_mem c hm))
    · by_cases hp : '/' ∈ p
      · rw [lastSeg_cons_of_mem hp] at h5
        exact Or.inr ⟨hp, h5⟩
      · rw [lastSeg_cons_of_not_mem hp] at h5
        have hc : c = '/' := by
          rcases List.mem_cons.mp h4 with h' | h'
          · exact h'.symm
          · exact absurd h' hp
        rw [if_pos hc] at h5
        exact Or.inl h5

/-- Prepending a `/` preserves the invariant. -/
theorem GoodPP_cons_slash {p prm : List Char} (hg : GoodPP p prm) :
    GoodPP ('/' :: p) prm := by
  obtain ⟨h1, h2, h3⟩ := hg
  refine ⟨h1, ?_, ?_⟩
  · intro hne
    have h2' := h2 hne
    by_cases hp : '/' ∈ p
    · rwa [lastSeg_cons_of_mem hp]
    · rw [lastSeg_cons_of_not_mem hp, if_pos rfl]
      rwa [lastSeg_of_no_slash hp] at h2'
  · intro hprm
    refine Or.inr ⟨List.mem_cons_self _ _, ?_⟩
    by_cases hp : '/' ∈ p
    · rw [lastSeg_cons_of_mem hp]
      rcases h3 hprm with h4 | ⟨_, h5⟩
      · exact fun hm => h4 (lastSeg_sub p _ hm)
      · exact h5
    · rw [lastSeg_cons_of_not_mem hp, if_pos rfl]
      rcases h3 hprm with h4 | ⟨h4, _⟩
      · exact h4
      · exact absurd h4 hp

/-- Peeling one non-`;` character off a reassembled pair yields a
reassembled pair again. -/
theorem joinPP_peel {q prm : List Char} {c : Char} {X : List Char}
    (hg : GoodPP q prm) (h : joinPP q prm = c :: X) (hc : c ≠ ';') :
    ∃ q', GoodPP q' prm ∧ X = joinPP q' prm := by
  cases q with
  | nil =>
    by_cases hprm : prm = []
    · subst hprm
      rw [joinPP_nil_right] at h
      cases h
    · rw [joinPP_of_ne hprm, List.nil_append] at h
      injection h with h1 _
      exact absurd h1.symm hc
  | cons a q' =>
    rw [joinPP_cons] at h
    injection h with h1 h2
    exact ⟨q', GoodPP_cons_front hg, h2.symm⟩

/-- Peeling any `;`-free front off a reassembled pair yields a
reassembled pair again. -/
theorem joinPP_peel_many {prm : List Char} :
    ∀ (m : List Char) {q X : List Char}, GoodPP q prm → (';' ∉ m) →
      joinPP q prm = m ++ X → ∃ q', GoodPP q' prm ∧ X = joinPP q' prm := by
  intro m
  induction m with
  | nil =>
    intro q X hg _ h
    rw [List.nil_append] at h
    exact ⟨q, hg, h.symm⟩
  | cons c m ih =>
    intro q X hg hm h
    rw [List.cons_append] at h
    obtain ⟨q', hg', hX⟩ := joinPP_peel hg h
      (fun heq => hm (heq ▸ List.mem_cons_self c m))
    exact ih hg' (fun hmem => hm (List.mem_cons_of_mem c hmem)) hX.symm

/-- The params round trip: re-splitting the reassembly of an invariant
pair and reassembling again restores the original string. -/
theorem resplit_of_GoodPP {q prm t : List Char} (hg : GoodPP q prm)
    (ht : joinPP q prm = t) (hsem : t.contains ';' = true) :
    joinPP (pySplitParams t).1 (pySplitParams t).2 = t := by
  obtain ⟨h1, h2, h3⟩ := hg
  by_cases hprm : prm = []
  · subst hprm
    rw [joinPP_nil_right] at ht
    subst ht
    have hsm : ';' ∈ q := mem_contains.mp hsem
    rcases h3 rfl with h4 | ⟨h4, h5⟩
    · exact absurd hsm h4
    · rw [pySplitParams_eq, if_pos (mem_contains.mpr h4)]
      rw [if_neg (fun hcc => h5 (mem_contains.mp hcc))]
      exact joinPP_nil_right q
  · have hne : prm ≠ [] := hprm
    rw [joinPP_of_ne hne] at ht
    subst ht
    have h2' := h2 hne
    by_cases hq : '/' ∈ q
    · have hsl : '/' ∈ q ++ ';' :: prm := List.mem_append.mpr (Or.inl hq)
      rw [pySplitParams_eq, if_pos (mem_contains.mpr hsl)]
      have hls : lastSeg (q ++ ';' :: prm) = lastSeg q ++ ';' :: prm := by
        apply lastSeg_append_no_slash
        intro hm
        rcases List.mem_cons.mp hm with h' | h'
        · exact absurd h' (by decide)
        · exact h1 h'
      rw [hls]
      rw [if_pos (mem_contains.mpr (List.mem_append.mpr
        (Or.inr (List.mem_cons_self _ _))))]
      have htw : (lastSeg q ++ ';' :: prm).takeWhile (fun c => !(c == ';'))
          = lastSeg q := takeWhile_first h2'
      have hdw : (lastSeg q ++ ';' :: prm).dropWhile (fun c => !(c == ';'))
          = ';' :: prm := dropWhile_first h2'
      rw [htw, hdw]
      have hdp : dirPart (q ++ ';' :: prm) ++ lastSeg q = q := by
        have hd := dirPart_append_lastSeg (q ++ ';' :: prm)
        rw [hls, ← List.append_assoc] at hd
        exact List.append_cancel_right hd
      show joinPP (dirPart (q ++ ';' :: prm) ++ lastSeg q) prm = q ++ ';' :: prm
      rw [hdp, joinPP_of_ne hne]
    · rw [lastSeg_of_no_slash hq] at h2'
      have hnsl : '/' ∉ q ++ ';' :: prm := by
        intro hm
        rcases List.mem_append.mp hm with h' | h'
        · exact hq h'
        · rcases List.mem_cons.mp h' with h'' | h''
          · exact absurd h'' (by decide)
          · exact h1 h''
      rw [pySplitParams_eq, if_neg (fun hcc => hnsl (mem_contains.mp hcc))]
      have htw : (q ++ ';' :: prm).takeWhile (fun c => !(c == ';')) = q :=
        takeWhile_first h2'
      have hdw : (q ++ ';' :: prm).dropWhile (fun c => !(c == ';'))
          = ';' :: prm := dropWhile_first h2'
      rw [htw, hdw]
      show joinPP q prm = q ++ ';' :: prm
      rw [joinPP_of_ne hne]

/-! ### Dissecting a URL that matches `HTML_OK` -/

theorem getLastD_mem {l : List Char} {d : Char} (h : l ≠ []) :
    l.getLastD d ∈ l := by
  rw [List.getLastD_eq_getLast?, List.getLast?_eq_getLast l h]
  exact List.getLast_mem h

/-- A match of the regex tail `(/.*)?$` that contains no newline is
empty or starts with `/`. -/
theorem htmlOkTail_shape {t : List Char} (h : htmlOkTail t = true)
    (hn : '\n' ∉ t) : t = [] ∨ t.take 1 = ['/'] := by
  unfold htmlOkTail at h
  have hcond : (t.getLastD ' ' == '\n') = false := by
    cases hne : t with
    | nil => decide
    | cons a t2 =>
      refine beq_eq_false_iff_ne.mpr ?_
      intro heq
      have hmem := getLastD_mem (l := a :: t2) (d := ' ') (by simp)
      rw [heq] at hmem
      rw [hne] at hn
      exact hn hmem
  rw [hcond] at h
  simp only [Bool.false_eq_true, if_false] at h
  rw [Bool.or_eq_true] at h
  rcases h with h1 | h1
  · exact Or.inl (List.isEmpty_iff.mp h1)
  · rw [Bool.and_eq_true] at h1
    exact Or.inr (eq_of_beq h1.1)

/-- Case analysis of one `IGNORECASE` literal acceptance. -/
theorem literalIgnore_cases {p c : Char} (h : literalIgnore p c = true) :
    c = p ∨
    (97 ≤ p.toNat ∧ p.toNat ≤ 122 ∧ c.toNat + 32 = p.toNat) ∨
    (p = 'i' ∧ (c.toNat = 0x130 ∨ c.toNat = 0x131)) ∨
    (p = 's' ∧ c.toNat = 0x17f) := by
  simp only [literalIgnore, Bool.or_eq_true, Bool.and_eq_true, beq_iff_eq,
    decide_eq_true_eq] at h
  tauto

/-- The pattern characters `:` and `/` pair with no other character. -/
theorem literalIgnore_colon {c : Char} (h : literalIgnore ':' c = true) :
    c = ':' := by
  rcases literalIgnore_cases h with h1 | ⟨h1, _, _⟩ | ⟨h1, _⟩ | ⟨h1, _⟩
  · exact h1
  · exact absurd h1 (by decide)
  · exact absurd h1 (by decide)
  · exact absurd h1 (by decide)

theorem literalIgnore_slash {c : Char} (h : literalIgnore '/' c = true) :
    c = '/' := by
  rcases literalIgnore_cases h with h1 | ⟨h1, _, _⟩ | ⟨h1, _⟩ | ⟨h1, _⟩
  · exact h1
  · exact absurd h1 (by decide)
  · exact absurd h1 (by decide)
  · exact absurd h1 (by decide)

/-- No scheme-pattern character accepts a colon. -/
theorem https_excl : ∀ p ∈ "https".data, literalIgnore p ':' = false := by
  decide

/-- No host-pattern character accepts a URL delimiter, a semicolon or
an unsafe character. -/
theorem host_excl :
    ∀ p ∈ "engsoftmoderna.info".data,
      ∀ x ∈ [':', '/', '?', '#', ';', '\t', '\r', '\n'],
        literalIgnore p x = false := by
  decide

theorem matchesPrefix_cons_inv {p : Char} {ps l : List Char}
    (h : matchesPrefix (p :: ps) l = true) :
    ∃ c t, l = c :: t ∧ literalIgnore p c = true ∧
      matchesPrefix ps t = true := by
  cases l with
  | nil => exact absurd h (by simp [matchesPrefix])
  | cons c t =>
    simp only [matchesPrefix, Bool.and_eq_true] at h
    exact ⟨c, t, rfl, h.1, h.2⟩

theorem matchesPrefix_append_inv {ps2 : List Char} :
    ∀ (ps1 l : List Char), matchesPrefix (ps1 ++ ps2) l = true →
      matchesPrefix ps1 l = true ∧
      matchesPrefix ps2 (l.drop ps1.length) = true := by
  intro ps1
  induction ps1 with
  | nil =>
    intro l h
    exact ⟨rfl, by simpa using h⟩
  | cons p ps ih =>
    intro l h
    rw [List.cons_append] at h
    obtain ⟨c, t, hl, hlit, hm⟩ := matchesPrefix_cons_inv h
    obtain ⟨h1, h2⟩ := ih t hm
    subst hl
    constructor
    · simp only [matchesPrefix, hlit, h1]
      rfl
    · simpa using h2

theorem matchesPrefix_length {ps : List Char} :
    ∀ {l : List Char}, matchesPrefix ps l = true → ps.length ≤ l.length := by
  induction ps with
  | nil =>
    intro l _
    simp
  | cons p ps ih =>
    intro l h
    obtain ⟨c, t, hl, _, hm⟩ := matchesPrefix_cons_inv h
    subst hl
    simp only [List.length_cons]
    exact Nat.succ_le_succ (ih hm)

/-- Every consumed input character pairs with some pattern
character. -/
theorem matchesPrefix_chars {ps : List Char} :
    ∀ {l : List Char}, matchesPrefix ps l = true →
      ∀ c ∈ l.take ps.length, ∃ p ∈ ps, literalIgnore p c = true := by
  induction ps with
  | nil =>
    intro l _ c hc
    simp at hc
  | cons p ps ih =>
    intro l h c hc
    obtain ⟨c0, t, hl, hlit, hm⟩ := matchesPrefix_cons_inv h
    subst hl
    rw [List.length_cons, List.take_succ_cons] at hc
    rcases List.mem_cons.mp hc with h' | h'
    · refine ⟨p, List.mem_cons_self _ _, ?_⟩
      rw [h']
      exact hlit
    · obtain ⟨p', hp', hl'⟩ := ih hm c h'
      exact ⟨p', List.mem_cons_of_mem _ hp', hl'⟩

/-- When a side condition forces every acceptance to be literal, the
consumed prefix equals the pattern. -/
theorem matchesPrefix_forced (Q : Char → Prop) :
    ∀ (ps l : List Char), matchesPrefix ps l = true →
      (∀ p c, p ∈ ps → literalIgnore p c = true → Q c → c = p) →
      (∀ c ∈ l.take ps.length, Q c) →
      l.take ps.length = ps := by
  intro ps
  induction ps with
  | nil =>
    intro l _ _ _
    simp
  | cons p ps ih =>
    intro l h hforce hQ
    obtain ⟨c, t, hl, hlit, hm⟩ := matchesPrefix_cons_inv h
    subst hl
    rw [List.length_cons, List.take_succ_cons]
    have hcQ : Q c := by
      refine hQ c ?_
      rw [List.length_cons, List.take_succ_cons]
      exact List.mem_cons_self _ _
    have hceq : c = p := hforce p c (List.mem_cons_self _ _) hlit hcQ
    have ht : t.take ps.length = ps := by
      refine ih t hm ?_ ?_
      · intro p' c' hp' hl' hq'
        exact hforce p' c' (List.mem_cons_of_mem _ hp') hl' hq'
      · intro c' hc'
        refine hQ c' ?_
        rw [List.length_cons, List.take_succ_cons]
        exact List.mem_cons_of_mem _ hc'
    rw [hceq, ht]

/-- The tail after a consumed character in positional form. -/
theorem drop_cons_succ {l t : List Char} {c : Char} {n : Nat}
    (h : l.drop n = c :: t) : t = l.drop (n + 1) := by
  have h' := congrArg (List.drop 1) h
  rw [List.drop_drop, (show (c :: t).drop 1 = t from rfl)] at h'
  exact h'.symm

theorem HTML_OK_parts {L : List Char} (h : HTML_OK_matches L = true) :
    matchesPrefix ("https://engsoftmoderna.info".data) L = true ∧
    htmlOkTail (L.drop 27) = true := by
  unfold HTML_OK_matches at h
  rw [Bool.and_eq_true] at h
  exact h

theorem HTML_OK_len {L : List Char} (h : HTML_OK_matches L = true) :
    27 ≤ L.length := by
  have h1 := matchesPrefix_length (HTML_OK_parts h).1
  rw [show ("https://engsoftmoderna.info".data).length = 27 from by decide]
    at h1
  exact h1

/-- Every character of the 19-character host slot pairs with a
host-pattern character. -/
theorem htmlOk_host_chars {L : List Char} (h : HTML_OK_matches L = true) :
    ∀ c ∈ (L.drop 8).take 19,
      ∃ p ∈ "engsoftmoderna.info".data, literalIgnore p c = true := by
  have hp := (HTML_OK_parts h).1
  rw [show ("https://engsoftmoderna.info".data)
      = "https://".data ++ "engsoftmoderna.info".data from by decide] at hp
  obtain ⟨_, h2⟩ := matchesPrefix_append_inv _ _ hp
  rw [show ("https://".data).length = 8 from by decide] at h2
  have h3 := matchesPrefix_chars h2
  rw [show ("engsoftmoderna.info".data).length = 19 from by decide] at h3
  exact h3

/-- The literal structure forced by a match: position 5 holds `:` and
positions 6 and 7 hold `/` (those pattern characters are matched
exactly), and the first five characters each pair with the
corresponding character of `https`. -/
theorem htmlOk_struct {L : List Char} (h : HTML_OK_matches L = true) :
    L = L.take 5 ++ ':' :: '/' :: '/' :: L.drop 8 ∧
    (':' ∉ L.take 5) ∧
    matchesPrefix ("https".data) L = true := by
  have hp := (HTML_OK_parts h).1
  rw [show ("https://engsoftmoderna.info".data)
      = "https".data ++ ':' :: '/' :: '/' :: "engsoftmoderna.info".data
      from by decide] at hp
  obtain ⟨h5, hrest⟩ := matchesPrefix_append_inv _ _ hp
  rw [show ("https".data).length = 5 from by decide] at hrest
  obtain ⟨c1, t1, he1, hl1, hm1⟩ := matchesPrefix_cons_inv hrest
  obtain ⟨c2, t2, he2, hl2, hm2⟩ := matchesPrefix_cons_inv hm1
  obtain ⟨c3, t3, he3, hl3, hm3⟩ := matchesPrefix_cons_inv hm2
  have hc1 := literalIgnore_colon hl1
  have hc2 := literalIgnore_slash hl2
  have hc3 := literalIgnore_slash hl3
  have ht1 : t1 = L.drop 6 := drop_cons_succ he1
  have ht2 : t2 = L.drop 7 := drop_cons_succ (ht1 ▸ he2)
  have ht3 : t3 = L.drop 8 := drop_cons_succ (ht2 ▸ he3)
  have hL58 : L.drop 5 = ':' :: '/' :: '/' :: L.drop 8 := by
    rw [he1, hc1, he2, hc2, he3, hc3, ht3]
  refine ⟨?_, ?_, h5⟩
  · conv_lhs => rw [← List.take_append_drop 5 L]
    rw [hL58]
  · intro hmem
    have hch := matchesPrefix_chars h5
    rw [show ("https".data).length = 5 from by decide] at hch
    obtain ⟨p, hp', hl⟩ := hch ':' hmem
    have hfalse := https_excl p hp'
    rw [hfalse] at hl
    exact Bool.false_ne_true hl

/-- A scheme character fixed by lowercasing that pairs with a character
of `https` under `IGNORECASE` is that character: the uppercase partner
is not lowercase-fixed, and the extended partners `İ`, `ı`, `ſ` are not
scheme characters (`ı` and `ſ` would also need `i` or `s` in the
pattern slot, and `i` does not occur in `https`). -/
theorem scheme_char_force (p c : Char) (hp : p ∈ "https".data)
    (hl : literalIgnore p c = true)
    (hc : schemeChar c = true ∧ c.toLower = c) : c = p := by
  rcases literalIgnore_cases hl with h1 | ⟨h1, h2, h3⟩ | ⟨h1, _⟩ | ⟨h1, h2⟩
  · exact h1
  · exfalso
    have h4 : 65 ≤ c.toNat ∧ c.toNat ≤ 90 := by omega
    have h5 := congrArg Char.toNat hc.2
    rw [toLower_toNat, if_pos h4] at h5
    omega
  · rw [h1] at hp
    exact absurd hp (by decide)
  · exfalso
    have h5 : c = Char.ofNat 0x17f := by
      refine char_toNat_inj ?_
      rw [h2, char_toNat_ofNat _ (by decide)]
    rw [h5] at hc
    exact absurd hc.1 (by decide)

/-- A list fixed by a map is fixed pointwise. -/
theorem map_eq_self_mem {f : Char → Char} :
    ∀ {l : List Char}, List.map f l = l → ∀ c ∈ l, f c = c := by
  intro l
  induction l with
  | nil =>
    intro _ c hc
    cases hc
  | cons a t ih =>
    intro h c hc
    rw [List.map_cons] at h
    injection h with h1 h2
    rcases List.mem_cons.mp hc with h' | h'
    · rw [h']
      exact h1
    · exact ih h2 c h'

/-- Scheme detection on a string with an explicit first colon preceded
by letters. -/
theorem detectScheme_fires {pre rest dflt : List Char} (hne : pre ≠ [])
    (hcol : ':' ∉ pre) (halpha : ∀ c ∈ pre, c.isAlpha = true) :
    detectScheme (pre ++ ':' :: rest) dflt = (asciiLower pre, rest) := by
  have htw : (pre ++ ':' :: rest).takeWhile (fun c => !(c == ':')) = pre :=
    takeWhile_first hcol
  have hc1 : pre.length < (pre ++ ':' :: rest).length := by
    rw [List.length_append]
    have : 0 < (':' :: rest).length := by simp
    omega
  have hc2 : 0 < pre.length := List.length_pos.mpr hne
  have hc3 : (pre.headD ' ').isAlpha = true := by
    cases pre with
    | nil => exact absurd rfl hne
    | cons a r => exact halpha a (List.mem_cons_self a r)
  have hc4 : pre.all schemeChar = true := by
    rw [List.all_eq_true]
    intro c hc
    exact schemeChar_of_isAlpha (halpha c hc)
  have hd : (pre ++ ':' :: rest).drop (pre.length + 1) = rest := by
    have he : pre ++ ':' :: rest = (pre ++ [':']) ++ rest := by simp
    rw [he, List.drop_left' (by simp)]
  simp only [detectScheme]
  rw [htw, if_pos ⟨hc1, hc2, hc3, hc4⟩, hd]

/-! ### Re-parsing a well-shaped same-origin URL -/

/-- A character paired with a host-pattern character is not a URL
delimiter, a semicolon or an unsafe character. -/
theorem host_char_ne {c : Char}
    (h : ∃ p ∈ "engsoftmoderna.info".data, literalIgnore p c = true) :
    ∀ x ∈ [':', '/', '?', '#', ';', '\t', '\r', '\n'], c ≠ x := by
  intro x hx he
  obtain ⟨p, hp, hl⟩ := h
  have hfalse := host_excl p hp x hx
  rw [he, hfalse] at hl
  exact Bool.false_ne_true hl

theorem take1_cons {a : Char} {l : List Char} (h : l.take 1 = [a]) :
    l = a :: l.drop 1 := by
  cases l with
  | nil => simp at h
  | cons b r =>
    have h3 : List.take 1 (b :: r) = [b] := rfl
    rw [h3] at h
    injection h with h4 _
    rw [h4]
    rfl

/-- Splitting a URL of the exact shape `https://` + slash-free host +
(`/`-initial or empty) tail, free of `#`, `?` and unsafe characters. -/
theorem pyUrlsplit_L {m t : List Char} (d : List Char)
    (hmch : ∀ c ∈ m, ∃ p ∈ "engsoftmoderna.info".data,
      literalIgnore p c = true)
    (ht : t = [] ∨ t.take 1 = ['/'])
    (hsh : '#' ∉ t) (hqu : '?' ∉ t)
    (hcln : ∀ c ∈ m ++ t, ¬(c = '\t' ∨ c = '\r' ∨ c = '\n')) :
    pyUrlsplit ("https://".data ++ m ++ t) d = ⟨"https".data, m, t, [], []⟩ := by
  have hmnd : ∀ c ∈ m, (!(c == '/' || c == '?' || c == '#')) = true := by
    intro c hc
    have h1 : c ≠ '/' := host_char_ne (hmch c hc) '/' (by decide)
    have h2 : c ≠ '?' := host_char_ne (hmch c hc) '?' (by decide)
    have h3 : c ≠ '#' := host_char_ne (hmch c hc) '#' (by decide)
    simp [h1, h2, h3]
  have hL : removeUnsafe ("https://".data ++ m ++ t)
      = "https://".data ++ m ++ t := by
    unfold removeUnsafe
    rw [List.filter_eq_self]
    intro c hc
    have hstep : c ∈ m ++ t → (!(c == '\t' || c == '\r' || c == '\n')) = true := by
      intro hmt
      have hnc := hcln c hmt
      have h1 : c ≠ '\t' := fun he => hnc (Or.inl he)
      have h2 : c ≠ '\r' := fun he => hnc (Or.inr (Or.inl he))
      have h3 : c ≠ '\n' := fun he => hnc (Or.inr (Or.inr he))
      simp [h1, h2, h3]
    rcases List.mem_append.mp hc with h' | h'
    · rcases List.mem_append.mp h' with h'' | h''
      · exact (by decide :
          ∀ x ∈ "https://".data,
            (!(x == '\t' || x == '\r' || x == '\n')) = true) c h''
      · exact hstep (List.mem_append.mpr (Or.inl h''))
    · exact hstep (List.mem_append.mpr (Or.inr h'))
  have hassoc : "https://".data ++ m ++ t
      = "https".data ++ ':' :: ('/' :: '/' :: (m ++ t)) := rfl
  have hlow : asciiLower ("https".data) = "https".data := by decide
  have hL' : removeUnsafe ("https".data ++ ':' :: '/' :: '/' :: (m ++ t))
      = "https".data ++ ':' :: '/' :: '/' :: (m ++ t) := by
    rw [← hassoc]
    exact hL
  have hdet2 : detectScheme ("https".data ++ ':' :: '/' :: '/' :: (m ++ t))
      (removeUnsafe d) = ("https".data, '/' :: '/' :: (m ++ t)) := by
    rw [detectScheme_fires (by decide) (by decide) (by decide), hlow]
  have hd1 : (detectScheme ("https".data ++ ':' :: '/' :: '/' :: (m ++ t))
      (removeUnsafe d)).1 = "https".data := by rw [hdet2]
  have hd2 : (detectScheme ("https".data ++ ':' :: '/' :: '/' :: (m ++ t))
      (removeUnsafe d)).2 = '/' :: '/' :: (m ++ t) := by rw [hdet2]
  have hnl1 : (m ++ t).takeWhile (fun c => !(c == '/' || c == '?' || c == '#'))
      = m := by
    rw [takeWhile_append_all hmnd]
    rcases ht with h' | h'
    · rw [h']
      simp
    · rw [take1_cons h', List.takeWhile_cons_of_neg (by simp)]
      simp
  have hnl2 : (m ++ t).dropWhile (fun c => !(c == '/' || c == '?' || c == '#'))
      = t := by
    rw [dropWhile_append_all hmnd]
    rcases ht with h' | h'
    · rw [h']
      rfl
    · nth_rewrite 1 [take1_cons h']
      rw [List.dropWhile_cons_of_neg (by simp)]
      exact (take1_cons h').symm
  simp only [pyUrlsplit]
  rw [hassoc, hL', hd1, hd2,
    if_pos (show List.take 2 ('/' :: '/' :: (m ++ t)) = ['/', '/'] from rfl)]
  unfold splitNetloc
  simp only [(show List.drop 2 ('/' :: '/' :: (m ++ t)) = m ++ t from rfl),
    hnl1, hnl2, splitFirst_of_not_mem hsh, splitFirst_of_not_mem hqu]

/-- Parsing the same shape: the params split applies to the tail, and
for a tail that reassembles from an invariant pair the re-splitting is
stable. -/
theorem pyUrlparse_L {m t d q0 prm0 : List Char}
    (hsplit : pyUrlsplit ("https://".data ++ m ++ t) d
      = ⟨"https".data, m, t, [], []⟩)
    (hg : GoodPP q0 prm0) (ht : joinPP q0 prm0 = t) :
    ∃ p prm, pyUrlparse ("https://".data ++ m ++ t) d
        = ⟨"https".data, m, p, prm, [], []⟩ ∧ joinPP p prm = t := by
  simp only [pyUrlparse, hsplit]
  by_cases hsem : t.contains ';' = true
  · refine ⟨(pySplitParams t).1, (pySplitParams t).2, ?_,
      resplit_of_GoodPP hg ht hsem⟩
    rw [if_pos (by
      rw [(by decide : usesParams.contains ("https".data) = true), hsem]
      rfl)]
  · refine ⟨t, [], ?_, joinPP_nil_right t⟩
    rw [if_neg (by
      intro hand
      rw [Bool.and_eq_true] at hand
      exact hsem hand.2)]

/-- Reassembling `https` + non-empty netloc + well-shaped tail. -/
theorem pyUrlunsplit_L {nl u : List Char} (hnl : nl ≠ [])
    (hu : u = [] ∨ u.take 1 = ['/']) :
    pyUrlunsplit ("https".data) nl u [] [] = "https://".data ++ nl ++ u := by
  unfold pyUrlunsplit
  simp only [List.isEmpty_nil, not_true_eq_false, if_false]
  have hu2 : (if ¬u.isEmpty = true ∧ u.take 1 ≠ ['/'] then '/' :: u else u)
      = u := by
    rcases hu with h' | h'
    · rw [if_neg]
      intro hand
      rw [h'] at hand
      simp at hand
    · rw [if_neg]
      intro hand
      exact hand.2 h'
  rw [if_pos (Or.inl (by simp [List.isEmpty_iff, hnl])), hu2,
    if_pos (by decide)]
  rfl

/-- The reassembly of a query/fragment-cleared parse never contains
tab, CR or LF. -/
theorem clearUnparse_clean (j : List Char) {c : Char}
    (hc : c = '\t' ∨ c = '\r' ∨ c = '\n') :
    c ∉ pyUrlunparse (clearQF (pyUrlparse j [])) := by
  intro hmem
  have h1 := pyUrlunsplit_chars (show _ by
    unfold pyUrlunparse clearQF at hmem
    exact hmem)
  rcases h1 with h2 | h2 | h2 | h2 | h2
  · rw [pyUrlparse_scheme] at h2
    exact (pyUrlsplit_clean j [] c hc).1 h2
  · rw [pyUrlparse_netloc] at h2
    exact (pyUrlsplit_clean j [] c hc).2.1 h2
  · split at h2
    · rcases List.mem_append.mp h2 with h3 | h3
      · exact (pyUrlsplit_clean j [] c hc).2.2.1
          (pyUrlparse_path_params_sub _ _ _ (Or.inl h3))
      · rcases List.mem_cons.mp h3 with h4 | h4
        · rcases hc with h | h | h <;> subst h <;> exact absurd h4 (by decide)
        · exact (pyUrlsplit_clean j [] c hc).2.2.1
            (pyUrlparse_path_params_sub _ _ _ (Or.inr h4))
    · exact (pyUrlsplit_clean j [] c hc).2.2.1
        (pyUrlparse_path_params_sub _ _ _ (Or.inl h2))
  · rcases hc with h | h | h <;> subst h <;> exact absurd h2 (by decide)
  · rcases hc with h | h | h <;> subst h <;> exact absurd h2 (by decide)

/-! ### Re-normalizing a well-shaped output is the identity -/

/-- The heart of idempotence: a string of the shape
`https://` + host lowering to the configured domain + well-shaped tail
that reassembles from an invariant `(path, params)` pair, free of
`#`/`?`/unsafe characters, already stripped, internal and not
extension-skipped, is a fixed point of `normalize`. -/
theorem normalize_of_shape_core {s : String} {m t : List Char}
    (hL : s.data = "https://".data ++ m ++ t)
    (hmne : m ≠ [])
    (hmch : ∀ c ∈ m, ∃ p ∈ "engsoftmoderna.info".data,
      literalIgnore p c = true)
    (hjp : ∃ q prm, GoodPP q prm ∧ t = joinPP q prm)
    (hts : t = [] ∨ t.take 1 = ['/'])
    (hsh : '#' ∉ t) (hqu : '?' ∉ t)
    (hcln : ∀ c ∈ m ++ t, ¬(c = '\t' ∨ c = '\r' ∨ c = '\n'))
    (hok : HTML_OK_matches s.data = true)
    (hsk : endsWithSkipExt s.data = false)
    (hstrip : pyStrip s.data = s.data) :
    normalize s = s := by
  have hsne : s.data ≠ [] := by
    intro he
    rw [he] at hL
    have hlen := congrArg List.length hL
    rw [List.length_append, List.length_append] at hlen
    have h8l : ("https://".data).length = 8 := by decide
    rw [h8l] at hlen
    simp only [List.length_nil] at hlen
    omega
  obtain ⟨q0, prm0, hg0, hteq⟩ := hjp
  have hsplit1 := pyUrlsplit_L ("https".data) hmch hts hsh hqu hcln
  have hsplit2 := pyUrlsplit_L ([]) hmch hts hsh hqu hcln
  obtain ⟨p1, prm1, hp1, hjp1⟩ := pyUrlparse_L hsplit1 hg0 hteq.symm
  obtain ⟨p2, prm2, hp2, hjp2⟩ := pyUrlparse_L hsplit2 hg0 hteq.symm
  have hunp : ∀ p prm, joinPP p prm = t →
      pyUrlunparse ⟨"https".data, m, p, prm, [], []⟩ = s.data := by
    intro p prm hpp
    show pyUrlunsplit ("https".data) m
      (if ¬prm.isEmpty = true then p ++ ';' :: prm else p) [] [] = s.data
    have hpp' : (if ¬prm.isEmpty = true then p ++ ';' :: prm else p) = t := hpp
    rw [hpp', pyUrlunsplit_L hmne hts]
    exact hL.symm
  have hbase : pyUrlparse BASE.data []
      = ⟨"https".data, "engsoftmoderna.info".data, [], [], [], []⟩ := by decide
  have hu1 : pyUrlparse s.data ("https".data)
      = ⟨"https".data, m, p1, prm1, [], []⟩ := by
    rw [hL]
    exact hp1
  have hjoin : pyUrljoin BASE.data s.data = s.data := by
    simp only [pyUrljoin]
    rw [if_neg (by decide), if_neg (by simp [List.isEmpty_iff, hsne])]
    simp only [hbase, hu1]
    rw [if_neg (by decide)]
    rw [if_pos ⟨by decide, by simp [List.isEmpty_iff, hmne]⟩]
    exact hunp p1 prm1 hjp1
  have hu2 : pyUrlparse s.data []
      = ⟨"https".data, m, p2, prm2, [], []⟩ := by
    rw [hL]
    exact hp2
  have hres : resolvedClean s.data = s.data := by
    unfold resolvedClean
    rw [hjoin, hu2]
    show pyUrlunparse ⟨"https".data, m, p2, prm2, [], []⟩ = s.data
    exact hunp p2 prm2 hjp2
  have htk1 : s.data.take 1 = ['h'] := by
    rw [hL]
    rfl
  simp only [normalize]
  rw [if_neg (by simp [List.isEmpty_iff, hsne])]
  rw [hstrip]
  rw [if_neg (by rw [htk1]; decide)]
  rw [hres]
  rw [if_neg (by rw [hok]; simp)]
  rw [if_neg (by rw [hsk]; simp)]

/-! ### The scheme of a resolved URL

`normalize` feeds `urljoin(BASE, href)` to `urlparse`; the lemmas of
this section show the re-split of that resolution always carries a
non-empty scheme: either the href was returned unchanged because its
own detected scheme differs from `https`, or the result is a rebuilt
URL beginning with the literal `https:`. -/

/-- Scheme detection ignores the default unless it falls back to it. -/
theorem detectScheme_cases (url d : List Char) :
    detectScheme url d = (d, url) ∨
    ((detectScheme url d).1 = (detectScheme url []).1 ∧
     (detectScheme url d).1 ≠ []) := by
  by_cases hc : (url.takeWhile (fun c => !(c == ':'))).length < url.length ∧
      0 < (url.takeWhile (fun c => !(c == ':'))).length ∧
      ((url.takeWhile (fun c => !(c == ':'))).headD ' ').isAlpha = true ∧
      (url.takeWhile (fun c => !(c == ':'))).all schemeChar = true
  · right
    constructor
    · simp only [detectScheme]
      rw [if_pos hc, if_pos hc]
    · simp only [detectScheme]
      rw [if_pos hc]
      intro he
      unfold asciiLower at he
      rw [List.map_eq_nil_iff] at he
      rw [he] at hc
      simp at hc
  · left
    simp only [detectScheme]
    rw [if_neg hc]

/-- The scheme of an `urlsplit` is the passed default or is independent
of it (and then non-empty). -/
theorem pyUrlsplit_scheme_dflt (u0 s0 : List Char) :
    (pyUrlsplit u0 s0).scheme = removeUnsafe s0 ∨
    ((pyUrlsplit u0 s0).scheme = (pyUrlsplit u0 []).scheme ∧
     (pyUrlsplit u0 s0).scheme ≠ []) := by
  have h1 : (pyUrlsplit u0 s0).scheme
      = (detectScheme (removeUnsafe u0) (removeUnsafe s0)).1 := by
    simp only [pyUrlsplit]
  have h2 : (pyUrlsplit u0 []).scheme
      = (detectScheme (removeUnsafe u0) []).1 := by
    simp only [pyUrlsplit]
    rfl
  rcases detectScheme_cases (removeUnsafe u0) (removeUnsafe s0)
    with hc | ⟨hc1, hc2⟩
  · left
    rw [h1, hc]
  · right
    rw [h1, h2]
    exact ⟨hc1, hc2⟩

theorem append_colon_extend (s a t : List Char) :
    (s ++ ':' :: a) ++ t = s ++ ':' :: (a ++ t) := by
  rw [List.append_assoc]
  rfl

/-- `urlunsplit` with scheme `https` always emits the scheme prefix. -/
theorem pyUrlunsplit_https_shape (nl u q f : List Char) :
    ∃ R, pyUrlunsplit ("https".data) nl u q f
      = "https".data ++ ':' :: R := by
  simp only [pyUrlunsplit]
  rw [if_pos (show ¬(("https".data).isEmpty = true) from by decide)]
  by_cases hq : ¬(q.isEmpty = true)
  · rw [if_pos hq]
    by_cases hf : ¬(f.isEmpty = true)
    · rw [if_pos hf, append_colon_extend, append_colon_extend]
      exact ⟨_, rfl⟩
    · rw [if_neg hf, append_colon_extend]
      exact ⟨_, rfl⟩
  · rw [if_neg hq]
    by_cases hf : ¬(f.isEmpty = true)
    · rw [if_pos hf, append_colon_extend]
      exact ⟨_, rfl⟩
    · rw [if_neg hf]
      exact ⟨_, rfl⟩

/-- Re-splitting an `urlunsplit` output with scheme `https` recovers
the scheme. -/
theorem pyUrlsplit_unsplit_https (nl u q f : List Char) :
    (pyUrlsplit (pyUrlunsplit ("https".data) nl u q f) []).scheme
      = "https".data := by
  obtain ⟨R, hR⟩ := pyUrlunsplit_https_shape nl u q f
  rw [hR]
  have hsch : ∀ Z : List Char, (pyUrlsplit Z []).scheme
      = (detectScheme (removeUnsafe Z) (removeUnsafe [])).1 := by
    intro Z
    simp only [pyUrlsplit]
  rw [hsch]
  have hru : removeUnsafe ("https".data ++ ':' :: R)
      = "https".data ++ ':' :: removeUnsafe R := by
    unfold removeUnsafe
    rw [List.filter_append, List.filter_cons_of_pos (by decide)]
    congr 1
  rw [hru, detectScheme_fires (by decide) (by decide) (by decide)]
  show asciiLower ("https".data) = "https".data
  decide

theorem pyUrlsplit_unparse_https (nl p prm q f : List Char) :
    (pyUrlsplit (pyUrlunparse ⟨"https".data, nl, p, prm, q, f⟩) []).scheme
      = "https".data := by
  unfold pyUrlunparse
  exact pyUrlsplit_unsplit_https _ _ _ _

/-- The three possible outputs of `urljoin`: the base (empty url), the
url itself (empty base or scheme mismatch), or a rebuilt URL whose
unparse scheme is the shared scheme of url and base. -/
theorem pyUrljoin_out (base url : List Char) :
    pyUrljoin base url = base ∨
    (pyUrljoin base url = url ∧
      (base.isEmpty = true ∨
       ¬((pyUrlparse url ((pyUrlparse base []).scheme)).scheme
           = (pyUrlparse base []).scheme ∧
         usesRelative.contains
           ((pyUrlparse url ((pyUrlparse base []).scheme)).scheme) = true))) ∨
    (∃ nl p prm q f, pyUrljoin base url
        = pyUrlunparse ⟨(pyUrlparse url ((pyUrlparse base []).scheme)).scheme,
            nl, p, prm, q, f⟩ ∧
      (pyUrlparse url ((pyUrlparse base []).scheme)).scheme
        = (pyUrlparse base []).scheme) := by
  by_cases hb : base.isEmpty = true
  · right
    left
    refine ⟨?_, Or.inl hb⟩
    simp only [pyUrljoin]
    rw [if_pos hb]
  · by_cases hu : url.isEmpty = true
    · left
      simp only [pyUrljoin]
      rw [if_neg hb, if_pos hu]
    · by_cases hg : (pyUrlparse url ((pyUrlparse base []).scheme)).scheme
          = (pyUrlparse base []).scheme ∧
        usesRelative.contains
          ((pyUrlparse url ((pyUrlparse base []).scheme)).scheme) = true
      · right
        right
        simp only [pyUrljoin]
        rw [if_neg hb, if_neg hu, if_neg (not_not_intro hg)]
        by_cases h1 : usesNetloc.contains
              ((pyUrlparse url ((pyUrlparse base []).scheme)).scheme) = true ∧
            ¬((pyUrlparse url ((pyUrlparse base []).scheme)).netloc.isEmpty
              = true)
        · rw [if_pos h1]
          exact ⟨_, _, _, _, _, rfl, hg.1⟩
        · rw [if_neg h1]
          by_cases h2 : ((pyUrlparse url
                ((pyUrlparse base []).scheme)).path.isEmpty = true) ∧
              ((pyUrlparse url
                ((pyUrlparse base []).scheme)).params.isEmpty = true)
          · rw [if_pos h2]
            exact ⟨_, _, _, _, _, rfl, hg.1⟩
          · rw [if_neg h2]
            exact ⟨_, _, _, _, _, rfl, hg.1⟩
      · right
        left
        refine ⟨?_, Or.inr hg⟩
        simp only [pyUrljoin]
        rw [if_neg hb, if_neg hu, if_pos hg]

/-- The resolution of any href against the program's base always
carries a scheme when re-split. -/
theorem pyUrljoin_base_scheme (h0 : List Char) :
    (pyUrlsplit (pyUrljoin BASE.data h0) []).scheme ≠ [] := by
  have hbase : (pyUrlparse BASE.data []).scheme = "https".data := by decide
  rcases pyUrljoin_out BASE.data h0
    with hj | ⟨hj, hg⟩ | ⟨nl, p, prm, q, f, hj, hsch⟩
  · rw [hj]
    decide
  · rcases hg with hb | hg
    · exact absurd hb (by decide)
    · rw [hj]
      have hg' : ¬((pyUrlsplit h0 ((pyUrlparse BASE.data []).scheme)).scheme
            = (pyUrlparse BASE.data []).scheme ∧
          usesRelative.contains
            ((pyUrlsplit h0
              ((pyUrlparse BASE.data []).scheme)).scheme) = true) := by
        rw [← pyUrlparse_scheme]
        exact hg
      rcases pyUrlsplit_scheme_dflt h0 ((pyUrlparse BASE.data []).scheme)
        with hs | ⟨hs1, hs2⟩
      · exfalso
        apply hg'
        rw [hs, hbase]
        exact ⟨by decide, by decide⟩
      · rw [← hs1]
        exact hs2
  · rw [hj]
    have hsch' : (pyUrlparse h0 ((pyUrlparse BASE.data []).scheme)).scheme
        = "https".data := by
      rw [hsch, hbase]
    rw [hsch', pyUrlsplit_unparse_https]
    decide

/-- The parse-level `(path, params)` pair always satisfies the
invariant when the scheme supports params. -/
theorem GoodPP_parse {u0 s0 : List Char}
    (hs : usesParams.contains ((pyUrlsplit u0 s0).scheme) = true) :
    GoodPP (pyUrlparse u0 s0).path (pyUrlparse u0 s0).params := by
  simp only [pyUrlparse]
  split
  · exact GoodPP_of_split _
  · rename_i hcond
    refine GoodPP_no_semi ?_
    intro hmem
    exact hcond (by rw [hs, mem_contains.mpr hmem]; rfl)

/-- Against a 19-character slash-free host pattern with a well-shaped
tail, the netloc/tail decomposition is forced at position 19. -/
theorem netloc_force {nl u2 R : List Char} (hR : nl ++ u2 = R)
    (hlen : 19 ≤ R.length)
    (hnoslash : ∀ c ∈ nl, c ≠ '/')
    (hmid : '/' ∉ R.take 19)
    (htail : htmlOkTail (R.drop 19) = true)
    (hn : '\n' ∉ R)
    (hu2 : u2 = [] ∨ u2.take 1 = ['/']) :
    nl = R.take 19 ∧ u2 = R.drop 19 := by
  rcases Nat.lt_trichotomy nl.length 19 with hlt | heq | hgt
  · exfalso
    subst hR
    have hu2ne : u2 ≠ [] := by
      intro he
      rw [he, List.append_nil] at hlen
      omega
    have hu2c : u2 = '/' :: u2.drop 1 := by
      rcases hu2 with h' | h'
      · exact absurd h' hu2ne
      · exact take1_cons h'
    have htk : (nl ++ u2).take 19 = nl ++ u2.take (19 - nl.length) := by
      rw [List.take_append_eq_append_take,
        List.take_of_length_le (by omega)]
    have hsm : '/' ∈ (nl ++ u2).take 19 := by
      rw [htk]
      apply List.mem_append.mpr
      right
      have h19 : 19 - nl.length = (19 - nl.length - 1) + 1 := by omega
      rw [hu2c, h19, List.take_succ_cons]
      exact List.mem_cons_self _ _
    exact hmid hsm
  · subst hR
    exact ⟨(List.take_left' heq).symm, (List.drop_left' heq).symm⟩
  · exfalso
    subst hR
    have hdp : (nl ++ u2).drop 19 = nl.drop 19 ++ u2 := by
      rw [List.drop_append_eq_append_drop,
        Nat.sub_eq_zero_of_le (le_of_lt hgt), List.drop_zero]
    have hne : nl.drop 19 ≠ [] := by
      intro he
      have hlen2 := congrArg List.length he
      rw [List.length_drop] at hlen2
      simp only [List.length_nil] at hlen2
      omega
    obtain ⟨c, rest, hcr⟩ : ∃ c rest, nl.drop 19 = c :: rest := by
      cases h' : nl.drop 19 with
      | nil => exact absurd h' hne
      | cons c rest => exact ⟨c, rest, rfl⟩
    have hn19 : '\n' ∉ (nl ++ u2).drop 19 :=
      fun hmem => hn ((List.drop_sublist _ _).mem hmem)
    rcases htmlOkTail_shape htail hn19 with h' | h'
    · rw [hdp, hcr, List.cons_append] at h'
      exact absurd h' (by simp)
    · rw [hdp, hcr, List.cons_append] at h'
      have hc : c = '/' := by simpa using h'
      have hcm : c ∈ nl := (List.drop_sublist _ _).mem
        (by rw [hcr]; exact List.mem_cons_self _ _)
      exact hnoslash c hcm hc

/-- `urlunsplit` with a non-empty scheme and empty query and
fragment. -/
theorem pyUrlunsplit_cons_scheme {sch : List Char} (hs : sch ≠ [])
    (nl u : List Char) :
    pyUrlunsplit sch nl u [] [] =
      sch ++ ':' ::
      (if ¬nl.isEmpty = true ∨ (¬sch.isEmpty = true ∧
          usesNetloc.contains sch = true ∧ u.take 2 ≠ ['/', '/']) then
        '/' :: '/' :: (nl ++ (if ¬u.isEmpty = true ∧ u.take 1 ≠ ['/']
          then '/' :: u else u))
      else u) := by
  unfold pyUrlunsplit
  simp only [List.isEmpty_nil, eq_self_iff_true, not_true, if_false]
  rw [if_pos (by simp [List.isEmpty_iff, hs])]

/-- Case analysis of the previous reassembly: either the `//` block is
skipped (empty netloc, and, for a netloc-scheme, a `//`-initial path),
or the result is `//` + netloc + a possibly `/`-prepended path whose
final shape is empty-or-`/`-initial. -/
theorem pyUrlunsplit_cons_cases {sch : List Char} (hs : sch ≠ [])
    (nl u : List Char) :
    ∃ U, pyUrlunsplit sch nl u [] [] = sch ++ ':' :: U ∧
      ((U = u ∧ nl.isEmpty = true ∧
         (usesNetloc.contains sch = false ∨ u.take 2 = ['/', '/'])) ∨
       (∃ u2, (u2 = [] ∨ u2.take 1 = ['/']) ∧ (u2 = u ∨ u2 = '/' :: u) ∧
         U = '/' :: '/' :: (nl ++ u2))) := by
  rw [pyUrlunsplit_cons_scheme hs]
  refine ⟨_, rfl, ?_⟩
  by_cases hcond : ¬nl.isEmpty = true ∨ (¬sch.isEmpty = true ∧
      usesNetloc.contains sch = true ∧ u.take 2 ≠ ['/', '/'])
  · right
    by_cases hprep : ¬u.isEmpty = true ∧ u.take 1 ≠ ['/']
    · refine ⟨'/' :: u, Or.inr rfl, Or.inr rfl, ?_⟩
      rw [if_pos hcond, if_pos hprep]
    · refine ⟨u, ?_, Or.inl rfl, ?_⟩
      · rcases Decidable.em (u.isEmpty = true) with he | he
        · exact Or.inl (List.isEmpty_iff.mp he)
        · right
          by_contra htk
          exact hprep ⟨he, htk⟩
      · rw [if_pos hcond, if_neg hprep]
  · left
    rw [if_neg hcond]
    push_neg at hcond
    obtain ⟨h1, h2⟩ := hcond
    refine ⟨rfl, h1, ?_⟩
    by_cases hcont : usesNetloc.contains sch = true
    · exact Or.inr (h2 (by simp [List.isEmpty_iff, hs]) hcont)
    · left
      rw [Bool.not_eq_true] at hcont
      exact hcont

/-- The shape of the string `normalize` rebuilds, for any argument of
the inner `urljoin` whose split carries a scheme: when the rebuilt
string matches the domain regex it begins with the literal `https://`
and its tail past position 27 is the reassembly of a pair satisfying
the params invariant. -/
theorem norm_shape {j L : List Char}
    (hL : L = pyUrlunparse (clearQF (pyUrlparse j [])))
    (hok : HTML_OK_matches L = true)
    (hjs : (pyUrlsplit j []).scheme ≠ []) :
    L.take 8 = "https://".data ∧
    ∃ q prm, GoodPP q prm ∧ L.drop 27 = joinPP q prm := by
  obtain ⟨hstq, hcol, h5m⟩ := htmlOk_struct hok
  have hL2 : L = pyUrlunsplit ((pyUrlsplit j []).scheme)
      ((pyUrlsplit j []).netloc)
      (joinPP (pyUrlparse j []).path (pyUrlparse j []).params) [] [] := by
    rw [← pyUrlparse_scheme, ← pyUrlparse_netloc]
    exact hL
  have hclnL : ∀ c ∈ L, ¬(c = '\t' ∨ c = '\r' ∨ c = '\n') := by
    intro c hc hbad
    rw [hL] at hc
    exact clearUnparse_clean j hbad hc
  rcases pyUrlsplit_scheme_cases j [] with hsc | ⟨hsne, hschars, hslow, _⟩
  · exact absurd hsc hjs
  · have hcolsch : ':' ∉ (pyUrlsplit j []).scheme := by
      intro hmem
      have hch := hschars ':' hmem
      exact absurd hch (by decide)
    obtain ⟨U, hLU, hcases⟩ := pyUrlunsplit_cons_cases hsne
      ((pyUrlsplit j []).netloc)
      (joinPP (pyUrlparse j []).path (pyUrlparse j []).params)
    rw [hLU] at hL2
    have hsf1 : splitFirst ':' L = ((pyUrlsplit j []).scheme, U) := by
      rw [hL2]
      exact splitFirst_append hcolsch
    have hsf2 : splitFirst ':' L = (L.take 5, '/' :: '/' :: L.drop 8) := by
      nth_rewrite 1 [hstq]
      exact splitFirst_append hcol
    have hpair := hsf1.symm.trans hsf2
    rw [Prod.mk.injEq] at hpair
    obtain ⟨hsch5, hU8⟩ := hpair
    have hslow' : List.map Char.toLower ((pyUrlsplit j []).scheme)
        = (pyUrlsplit j []).scheme := hslow
    have hfix := map_eq_self_mem hslow'
    have hQ5 : ∀ c ∈ L.take 5, schemeChar c = true ∧ c.toLower = c := by
      intro c hc
      rw [← hsch5] at hc
      exact ⟨hschars c hc, hfix c hc⟩
    have htake5 : L.take ("https".data).length = "https".data := by
      refine matchesPrefix_forced (fun c => schemeChar c = true ∧ c.toLower = c)
        ("https".data) L h5m scheme_char_force ?_
      rw [show ("https".data).length = 5 from by decide]
      exact hQ5
    rw [show ("https".data).length = 5 from by decide] at htake5
    have hschttps : (pyUrlsplit j []).scheme = "https".data := by
      rw [hsch5, htake5]
    have hL5 : L = "https".data ++ ':' :: U := by rw [hL2, hschttps]
    have h8 : L.take 8 = "https://".data := by
      rw [hL5, hU8]
      rfl
    refine ⟨h8, ?_⟩
    have hups : usesParams.contains ((pyUrlsplit j []).scheme) = true := by
      rw [hschttps]
      decide
    have hgood := GoodPP_parse hups
    have hdd : (L.drop 8).drop 19 = L.drop 27 := by
      rw [List.drop_drop]
    have hhost := htmlOk_host_chars hok
    have hhostne : ∀ x ∈ [':', '/', '?', '#', ';', '\t', '\r', '\n'],
        x ∉ (L.drop 8).take 19 := by
      intro x hx hmem
      exact host_char_ne (hhost x hmem) x hx rfl
    rcases hcases with ⟨hUu, hnlE, hsecond⟩ | ⟨u2, hu2shape, hu2val, hU2⟩
    · rcases hsecond with hcf | htk2
      · rw [hschttps] at hcf
        exact absurd hcf (by decide)
      · have hjp : joinPP (pyUrlparse j []).path (pyUrlparse j []).params
            = '/' :: '/' :: L.drop 8 := by rw [← hUu, hU8]
        have hsplitR : (L.drop 8).take 19 ++ (L.drop 8).drop 19 = L.drop 8 :=
          List.take_append_drop 19 (L.drop 8)
        have hjp2 : joinPP (pyUrlparse j []).path (pyUrlparse j []).params
            = ('/' :: '/' :: (L.drop 8).take 19) ++ (L.drop 8).drop 19 := by
          rw [hjp, List.cons_append, List.cons_append, hsplitR]
        have hfront : ';' ∉ '/' :: '/' :: (L.drop 8).take 19 := by
          intro hmem
          rcases List.mem_cons.mp hmem with h' | h'
          · exact absurd h' (by decide)
          · rcases List.mem_cons.mp h' with h'' | h''
            · exact absurd h'' (by decide)
            · exact hhostne ';' (by decide) h''
        obtain ⟨q', hg', ht'⟩ :=
          joinPP_peel_many ('/' :: '/' :: (L.drop 8).take 19) hgood hfront hjp2
        refine ⟨q', (pyUrlparse j []).params, hg', ?_⟩
        rw [← hdd]
        exact ht'
    · have hcmb := hU8.symm.trans hU2
      injection hcmb with _ hcmb2
      injection hcmb2 with _ hcmb3
      have hR : (pyUrlsplit j []).netloc ++ u2 = L.drop 8 := hcmb3.symm
      have hnoslash : ∀ c ∈ (pyUrlsplit j []).netloc, c ≠ '/' :=
        fun c hc => (pyUrlsplit_netloc_chars j [] c hc).1
      have hlenL : 27 ≤ L.length := HTML_OK_len hok
      have hlenR : 19 ≤ (L.drop 8).length := by
        rw [List.length_drop]
        omega
      have htail19 : htmlOkTail ((L.drop 8).drop 19) = true := by
        rw [hdd]
        exact (HTML_OK_parts hok).2
      have hnR : '\n' ∉ L.drop 8 :=
        fun hmem => hclnL '\n' ((List.drop_sublist _ _).mem hmem)
          (Or.inr (Or.inr rfl))
      obtain ⟨hnl19, hu2t⟩ := netloc_force hR hlenR hnoslash
        (hhostne '/' (by decide)) htail19 hnR hu2shape
      rcases hu2val with hval | hval
      · refine ⟨(pyUrlparse j []).path, (pyUrlparse j []).params, hgood, ?_⟩
        rw [← hdd, ← hu2t, hval]
      · refine ⟨'/' :: (pyUrlparse j []).path, (pyUrlparse j []).params,
          GoodPP_cons_slash hgood, ?_⟩
        rw [← hdd, ← hu2t, hval, joinPP_cons]

/-! ## C8: idempotence of the normalizer -/

/-- C8 counterexample to unconditional idempotence: an href whose path
carries a space before the query yields a normalized URL with a
trailing space, and normalizing that output strips the space, changing
it.  (Python: `normalize("/x ?q=1")` is
`"https://engsoftmoderna.info/x "`, whose own normalization is
`"https://engsoftmoderna.info/x"`.) -/
theorem claim_C8_cex :
    normalize "/x ?q=1" = "https://engsoftmoderna.info/x " ∧
    normalize "https://engsoftmoderna.info/x "
      = "https://engsoftmoderna.info/x" ∧
    ("https://engsoftmoderna.info/x " : String)
      ≠ "https://engsoftmoderna.info/x" := by
  refine ⟨by decide, by decide, by decide⟩

/-- C8 (amended).  The normalizer is idempotent on every non-empty
output that carries no leading or trailing Python whitespace: if
`normalize href = s ≠ ""` and `s.strip()` equals `s`, then
`normalize s = s`.  (The whitespace proviso is forced by
`claim_C8_cex`: `str.strip()` is the only step of `normalize` that can
alter an already-normalized URL.) -/
theorem claim_C8 (href s : String) (h : normalize href = s) (hne : s ≠ "")
    (hstrip : pyStrip s.data = s.data) : normalize s = s := by
  obtain ⟨hdata, hok, hsk⟩ := normalize_eq_some h hne
  have hLform : s.data = pyUrlunparse (clearQF (pyUrlparse
      (pyUrljoin BASE.data (pyStrip href.data)) [])) := hdata
  obtain ⟨h8, hjp⟩ := norm_shape hLform hok
    (pyUrljoin_base_scheme (pyStrip href.data))
  obtain ⟨hsh, hqu⟩ := normalize_no_hash_query h hne
  have hcln : ∀ c ∈ s.data, ¬(c = '\t' ∨ c = '\r' ∨ c = '\n') := by
    intro c hc hbad
    rw [hLform] at hc
    exact clearUnparse_clean _ hbad hc
  have hmch := htmlOk_host_chars hok
  have hmne : (s.data.drop 8).take 19 ≠ [] := by
    intro he
    have hl := congrArg List.length he
    rw [List.length_take, List.length_drop, List.length_nil] at hl
    have hlen := HTML_OK_len hok
    omega
  have hdd : (s.data.drop 8).drop 19 = s.data.drop 27 := by
    rw [List.drop_drop]
  have htail : htmlOkTail (s.data.drop 27) = true := (HTML_OK_parts hok).2
  have hnt : '\n' ∉ s.data.drop 27 := fun hm => hcln '\n'
    ((List.drop_sublist _ _).mem hm) (Or.inr (Or.inr rfl))
  have hts := htmlOkTail_shape htail hnt
  have hL : s.data
      = "https://".data ++ (s.data.drop 8).take 19 ++ s.data.drop 27 :=
    calc s.data = s.data.take 8 ++ s.data.drop 8 :=
          (List.take_append_drop 8 s.data).symm
      _ = "https://".data
          ++ ((s.data.drop 8).take 19 ++ (s.data.drop 8).drop 19) := by
          rw [h8, List.take_append_drop]
      _ = "https://".data ++ (s.data.drop 8).take 19 ++ s.data.drop 27 := by
          rw [hdd, ← List.append_assoc]
  have hsht : '#' ∉ s.data.drop 27 :=
    fun hm => hsh ((List.drop_sublist _ _).mem hm)
  have hqut : '?' ∉ s.data.drop 27 :=
    fun hm => hqu ((List.drop_sublist _ _).mem hm)
  have hclnmt : ∀ c ∈ (s.data.drop 8).take 19 ++ s.data.drop 27,
      ¬(c = '\t' ∨ c = '\r' ∨ c = '\n') := by
    intro c hc
    rcases List.mem_append.mp hc with h' | h'
    · exact hcln c
        ((List.drop_sublist _ _).mem ((List.take_sublist _ _).mem h'))
    · exact hcln c ((List.drop_sublist _ _).mem h')
  obtain ⟨q, prm, hg, hteq⟩ := hjp
  exact normalize_of_shape_core hL hmne hmch ⟨q, prm, hg, hteq⟩ hts hsht hqut
    hclnmt hok hsk hstrip

/-- Witness for C8 at a concrete input: a chapter href normalizes to a
whitespace-free URL, and normalizing that output leaves it unchanged. -/
theorem claim_C8_witness :
    normalize "/cap1.html" = "https://engsoftmoderna.info/cap1.html" ∧
    normalize "https://engsoftmoderna.info/cap1.html"
      = "https://engsoftmoderna.info/cap1.html" :=
  ⟨by decide,
   claim_C8 "/cap1.html" "https://engsoftmoderna.info/cap1.html"
     (by decide) (by decide) (by decide)⟩

end Esm
